import Mathlib

/-!
Verification of the column-storage layer of the whoosh search index and of
the posting `Format.index` routine.

The column engine itself (`whoosh/columns.py`) is not among the repository
files at hand; only its test suite is.  Every definition below that embeds a
column encoding is therefore modelled from the specification's description of
that encoding (dictionary tables, sparse sorted pairs with binary search,
packed minimal-width integers, roaring run containers, interval lists with an
interned label table, prefix-compressed paths), and each such definition says
so in its doc comment.  `Format.index` is embedded directly from
`src/whoosh/postings/postform.py`.
-/

/-- A byte string: a list of byte values (each intended `< 256`). -/
abbrev Bytes := List Nat

/-- Error taxonomy of the spec (§7): range, type and corruption errors.
Capacity overflow is a degraded non-fatal path and has no constructor here. -/
inductive ColErr
  | rangeKind
  | typeKind
  | corruptionKind
deriving DecidableEq, Repr

/-- Docnums of a write session: the first components of the added pairs. -/
def docnums {α : Type} (adds : List (Nat × α)) : List Nat :=
  adds.map Prod.fst

/-- The writer contract (spec §3): document numbers arrive in strictly
increasing order (the tests always add with strictly increasing docnums). -/
def strictIncr {α : Type} (adds : List (Nat × α)) : Prop :=
  List.Pairwise (· < ·) (docnums adds)

instance {α : Type} (adds : List (Nat × α)) : Decidable (strictIncr adds) :=
  inferInstanceAs (Decidable (List.Pairwise _ _))

/-- The value added for a docnum, if any. -/
def lookupDoc {α : Type} (adds : List (Nat × α)) (d : Nat) : Option α :=
  (adds.find? (fun p => p.1 == d)).map Prod.snd

/-- The logical content of a finished column (spec §3): for every docnum
below `doc_count`, the added value, or the default where absent. -/
def materialize {α : Type} (adds : List (Nat × α)) (dflt : α) (dc : Nat) :
    List α :=
  (List.range dc).map (fun d => (lookupDoc adds d).getD dflt)

theorem strictIncr_nodup {α : Type} {adds : List (Nat × α)}
    (h : strictIncr adds) : (docnums adds).Nodup :=
  List.Pairwise.imp Nat.ne_of_lt h

theorem strictIncr_tail {α : Type} {p : Nat × α} {rest : List (Nat × α)}
    (h : strictIncr (p :: rest)) : strictIncr rest := by
  have h2 : List.Pairwise (· < ·) (p.1 :: docnums rest) := h
  exact (List.pairwise_cons.mp h2).2

theorem lookupDoc_eq_some {α : Type} {adds : List (Nat × α)} {d : Nat} {v : α}
    (hnd : (docnums adds).Nodup) (hmem : (d, v) ∈ adds) :
    lookupDoc adds d = some v := by
  induction adds with
  | nil => cases hmem
  | cons p rest ih =>
    rcases List.mem_cons.mp hmem with h | h
    · subst h
      simp only [lookupDoc]
      rw [List.find?_cons_of_pos _ (by simp)]
      rfl
    · have hne : p.1 ≠ d := by
        intro hd
        have hmem2 : d ∈ docnums rest := List.mem_map_of_mem Prod.fst h
        have : p.1 ∈ docnums rest := hd ▸ hmem2
        exact (List.nodup_cons.mp hnd).1 this
      have hrest : (docnums rest).Nodup := (List.nodup_cons.mp hnd).2
      have h1 : lookupDoc (p :: rest) d = lookupDoc rest d := by
        simp only [lookupDoc]
        rw [List.find?_cons_of_neg _ (by simpa using hne)]
      rw [h1]
      exact ih hrest h

theorem lookupDoc_eq_none {α : Type} {adds : List (Nat × α)} {d : Nat}
    (h : d ∉ docnums adds) : lookupDoc adds d = none := by
  have : adds.find? (fun p => p.1 == d) = none := by
    rw [List.find?_eq_none]
    intro p hp hbeq
    exact h (by
      have : p.1 = d := by simpa using hbeq
      exact this ▸ List.mem_map_of_mem Prod.fst hp)
  simp [lookupDoc, this]

theorem materialize_length {α : Type} (adds : List (Nat × α)) (dflt : α)
    (dc : Nat) : (materialize adds dflt dc).length = dc := by
  simp [materialize]

theorem materialize_getD {α : Type} (adds : List (Nat × α)) (dflt b : α)
    {dc d : Nat} (hd : d < dc) :
    (materialize adds dflt dc).getD d b = (lookupDoc adds d).getD dflt := by
  rw [List.getD_eq_getElem?_getD]
  rw [List.getElem?_eq_getElem (by simpa [materialize] using hd)]
  simp [materialize]

/-! ### Fixed-width chunk machinery

Shared by the fixed-bytes and the numeric columns: the encoded byte range is
the concatenation of one `w`-byte slot per document, read back by slicing at
`docnum * w` (spec §4.2, §4.4). -/

/-- The first `n` chunks of `w` bytes each of a byte range. -/
def chunksOf (w : Nat) : Nat → Bytes → List Bytes
  | 0, _ => []
  | n + 1, bs => bs.take w :: chunksOf w n (bs.drop w)

theorem chunksOf_length (w n : Nat) (bs : Bytes) :
    (chunksOf w n bs).length = n := by
  induction n generalizing bs with
  | zero => rfl
  | succ n ih => simp [chunksOf, ih]

theorem flatten_drop_take {w : Nat} (l : List Bytes)
    (hw : ∀ x ∈ l, x.length = w) (i : Nat) :
    ((l.flatten).drop (i * w)).take w = l.getD i [] ++
      (((l.drop (i + 1)).flatten).take (w - (l.getD i []).length)) := by
  induction l generalizing i with
  | nil => simp [List.getD]
  | cons x xs ih =>
    have hx : x.length = w := hw x (List.mem_cons_self x xs)
    cases i with
    | zero =>
      simp only [Nat.zero_mul, List.drop_zero, List.flatten_cons, List.getD_cons_zero]
      rw [List.take_append_eq_append_take, List.take_of_length_le (by omega)]
      simp [hx]
    | succ i =>
      have hxs : ∀ y ∈ xs, y.length = w := fun y hy => hw y (List.mem_cons_of_mem x hy)
      simp only [List.flatten_cons, List.getD_cons_succ]
      rw [List.drop_append_eq_append_drop]
      have hlen : x.length ≤ (i + 1) * w := by
        rw [hx]
        exact Nat.le_mul_of_pos_left w (by omega)
      rw [List.drop_of_length_le hlen]
      have harith : (i + 1) * w - x.length = i * w := by
        rw [hx, Nat.succ_mul]
        omega
      rw [List.nil_append, harith]
      simpa using ih hxs i

/-- Reading slot `i` of a concatenation of `w`-byte slots recovers slot `i`. -/
theorem flatten_slot {w : Nat} (l : List Bytes) (hw : ∀ x ∈ l, x.length = w)
    {i : Nat} (hi : i < l.length) :
    ((l.flatten).drop (i * w)).take w = l.getD i [] := by
  have hgd : (l.getD i []).length = w := by
    rw [List.getD_eq_getElem?_getD, List.getElem?_eq_getElem hi]
    exact hw _ (List.getElem_mem hi)
  rw [flatten_drop_take l hw i, hgd]
  simp

theorem chunksOf_getD (w : Nat) (bs : Bytes) {n i : Nat} (hi : i < n) :
    (chunksOf w n bs).getD i [] = (bs.drop (i * w)).take w := by
  induction n generalizing bs i with
  | zero => omega
  | succ n ih =>
    cases i with
    | zero => simp [chunksOf]
    | succ i =>
      have h2 : i < n := by omega
      have h3 := ih (bs.drop w) h2
      simp only [chunksOf, List.getD_cons_succ]
      rw [h3, List.drop_drop]
      have harith : w + i * w = (i + 1) * w := by ring
      rw [harith]

/-! ### Base-256 little-endian integers (numeric and compact-int columns) -/

/-- `w` bytes of `n`, least significant first. -/
def toLE : Nat → Nat → Bytes
  | 0, _ => []
  | w + 1, n => n % 256 :: toLE w (n / 256)

/-- The integer a little-endian byte string denotes. -/
def fromLE : Bytes → Nat
  | [] => 0
  | b :: bs => b + 256 * fromLE bs

theorem toLE_length (w n : Nat) : (toLE w n).length = w := by
  induction w generalizing n with
  | zero => rfl
  | succ w ih => simp [toLE, ih]

theorem toLE_lt (w n : Nat) : ∀ b ∈ toLE w n, b < 256 := by
  induction w generalizing n with
  | zero => simp [toLE]
  | succ w ih =>
    intro b hb
    rcases List.mem_cons.mp hb with h | h
    · subst h; exact Nat.mod_lt _ (by norm_num)
    · exact ih _ b h

theorem fromLE_toLE (w n : Nat) : fromLE (toLE w n) = n % 256 ^ w := by
  induction w generalizing n with
  | zero => simp [toLE, fromLE, Nat.mod_one]
  | succ w ih =>
    simp only [toLE, fromLE, ih]
    rw [pow_succ']
    exact Nat.mod_mul.symm

theorem fromLE_toLE_of_lt {w n : Nat} (h : n < 256 ^ w) :
    fromLE (toLE w n) = n := by
  rw [fromLE_toLE]
  exact Nat.mod_eq_of_lt h

theorem toLE_fromLE {w : Nat} {bs : Bytes} (hl : bs.length = w)
    (hb : ∀ b ∈ bs, b < 256) : toLE w (fromLE bs) = bs := by
  induction bs generalizing w with
  | nil => subst hl; rfl
  | cons b rest ih =>
    subst hl
    have hb0 : b < 256 := hb b (List.mem_cons_self _ _)
    have hbr : ∀ x ∈ rest, x < 256 := fun x hx => hb x (List.mem_cons_of_mem _ hx)
    simp only [List.length_cons, toLE, fromLE]
    have h1 : (b + 256 * fromLE rest) % 256 = b := by
      rw [Nat.add_mul_mod_self_left]
      exact Nat.mod_eq_of_lt hb0
    have h2 : (b + 256 * fromLE rest) / 256 = fromLE rest := by
      rw [Nat.add_mul_div_left _ _ (by norm_num)]
      rw [Nat.div_eq_of_lt hb0]
      omega
    rw [h1, h2, ih rfl hbr]

theorem fromLE_lt {bs : Bytes} (hb : ∀ b ∈ bs, b < 256) :
    fromLE bs < 256 ^ bs.length := by
  induction bs with
  | nil => simp [fromLE]
  | cons b rest ih =>
    have hb0 : b < 256 := hb b (List.mem_cons_self _ _)
    have hr := ih (fun x hx => hb x (List.mem_cons_of_mem _ hx))
    simp only [fromLE, List.length_cons, pow_succ']
    omega

theorem getD_map_of_lt {α β : Type} (f : α → β) (l : List α) {i : Nat}
    (hi : i < l.length) (d : β) (d2 : α) :
    (l.map f).getD i d = f (l.getD i d2) := by
  rw [List.getD_eq_getElem?_getD, List.getD_eq_getElem?_getD,
      List.getElem?_eq_getElem (by simpa using hi), List.getElem?_eq_getElem hi]
  simp

theorem lookupDoc_mem {α : Type} {adds : List (Nat × α)} {d : Nat} {v : α}
    (h : lookupDoc adds d = some v) : ∃ p ∈ adds, p.2 = v := by
  simp only [lookupDoc, Option.map_eq_some'] at h
  rcases h with ⟨p, hp, rfl⟩
  exact ⟨p, List.mem_of_find?_eq_some hp, rfl⟩

theorem mem_materialize {α : Type} {adds : List (Nat × α)} {dflt : α}
    {dc : Nat} : ∀ x ∈ materialize adds dflt dc,
      x = dflt ∨ ∃ p ∈ adds, p.2 = x := by
  intro x hx
  rcases List.mem_map.mp hx with ⟨d, _, hxd⟩
  cases hld : lookupDoc adds d with
  | none =>
    left
    rw [← hxd, hld]
    rfl
  | some v =>
    right
    have hv : x = v := by rw [← hxd, hld]; rfl
    subst hv
    exact lookupDoc_mem hld

/-! ### Numeric column (spec §4.4)

Fixed-width integer elements; values are stored in the writer's native byte
order (modelled as little-endian), one `w`-byte slot per document, default 0;
a reader with `native = false` byte-swaps every element on read. -/

/-- Modelled from the spec: the numeric column's `Writer.finish` serializes
one `w`-byte element per docnum in writer-native (little-endian) order,
unwritten docnums holding the default 0 (`whoosh.columns.NumericColumn` is
not among the files at hand). -/
def numFinish (w : Nat) (adds : List (Nat × Nat)) (dc : Nat) : Bytes :=
  ((materialize adds 0 dc).map (toLE w)).flatten

/-- Modelled from the spec: the numeric Reader reads the `w`-byte slot at
`docnum * w` and byte-swaps it when `native` is false. -/
def numReadAt (w : Nat) (bytes : Bytes) (native : Bool) (d : Nat) : Nat :=
  fromLE (if native then (bytes.drop (d * w)).take w
          else ((bytes.drop (d * w)).take w).reverse)

/-- Modelled from the spec: `Reader.__getitem__` with the range check of
spec §4.1 (RangeKind when `docnum ≥ doc_count`). -/
def numGetitem (w : Nat) (bytes : Bytes) (dc : Nat) (native : Bool) (d : Nat) :
    Except ColErr Nat :=
  if dc ≤ d then .error .rangeKind else .ok (numReadAt w bytes native d)

/-- Modelled from the spec: full iteration walks the `doc_count` consecutive
`w`-byte slots in docnum order. -/
def numIter (w : Nat) (bytes : Bytes) (dc : Nat) (native : Bool) : List Nat :=
  (chunksOf w dc bytes).map
    (fun c => fromLE (if native then c else c.reverse))

/-- The value an element denotes once its `w` bytes are reversed. -/
def byteSwapped (w n : Nat) : Nat := fromLE ((toLE w n).reverse)

/-- Modelled from the spec: what a writer running on a machine of the
opposite byte order produces — every element's bytes in reversed order. -/
def numFinishOpp (w : Nat) (adds : List (Nat × Nat)) (dc : Nat) : Bytes :=
  ((materialize adds 0 dc).map (fun v => (toLE w v).reverse)).flatten

theorem numFinish_chunk (w : Nat) (adds : List (Nat × Nat)) {dc d : Nat}
    (hd : d < dc) :
    ((numFinish w adds dc).drop (d * w)).take w
      = toLE w ((lookupDoc adds d).getD 0) := by
  have hw : ∀ x ∈ (materialize adds 0 dc).map (toLE w), x.length = w := by
    intro x hx
    rcases List.mem_map.mp hx with ⟨v, _, rfl⟩
    exact toLE_length w v
  have hlen : d < ((materialize adds 0 dc).map (toLE w)).length := by
    simpa [materialize_length] using hd
  rw [numFinish, flatten_slot _ hw hlen,
      getD_map_of_lt (toLE w) _ (by simpa [materialize_length] using hd) [] 0,
      materialize_getD adds 0 0 hd]

theorem numFinishOpp_chunk (w : Nat) (adds : List (Nat × Nat)) {dc d : Nat}
    (hd : d < dc) :
    ((numFinishOpp w adds dc).drop (d * w)).take w
      = (toLE w ((lookupDoc adds d).getD 0)).reverse := by
  have hw : ∀ x ∈ (materialize adds 0 dc).map (fun v => (toLE w v).reverse),
      x.length = w := by
    intro x hx
    rcases List.mem_map.mp hx with ⟨v, _, rfl⟩
    simp [toLE_length]
  have hlen : d < ((materialize adds 0 dc).map
      (fun v => (toLE w v).reverse)).length := by
    simpa [materialize_length] using hd
  rw [numFinishOpp, flatten_slot _ hw hlen,
      getD_map_of_lt (fun v => (toLE w v).reverse) _
        (by simpa [materialize_length] using hd) [] 0,
      materialize_getD adds 0 0 hd]

theorem numReadAt_native (w : Nat) (adds : List (Nat × Nat)) {dc d : Nat}
    (hv : ∀ p ∈ adds, p.2 < 256 ^ w) (hd : d < dc) :
    numReadAt w (numFinish w adds dc) true d = (lookupDoc adds d).getD 0 := by
  rw [numReadAt, if_pos rfl, numFinish_chunk w adds hd]
  apply fromLE_toLE_of_lt
  cases hld : lookupDoc adds d with
  | none => exact pow_pos (by norm_num) w
  | some v =>
    rcases lookupDoc_mem hld with ⟨p, hp, rfl⟩
    simpa using hv p hp

theorem numIter_getD (w : Nat) (bytes : Bytes) (native : Bool) {dc d : Nat}
    (hd : d < dc) :
    (numIter w bytes dc native).getD d 0 = numReadAt w bytes native d := by
  rw [numIter,
      getD_map_of_lt _ _ (by simpa [chunksOf_length] using hd) 0 [],
      chunksOf_getD w bytes hd, numReadAt]

/-! ### Fixed-width bytes column (spec §4.2)

Values stored at `docnum * width` with no index; the default is a
zero-filled value of the fixed width. -/

/-- Modelled from the spec: `FixedBytesColumn`'s writer lays one `w`-byte
value per docnum, zero-filled where unwritten (`whoosh.columns.FixedBytesColumn`
is not among the files at hand). -/
def fixedFinish (w : Nat) (adds : List (Nat × Bytes)) (dc : Nat) : Bytes :=
  (materialize adds (List.replicate w 0) dc).flatten

/-- Modelled from the spec: trivial O(1) lookup at `docnum * width`. -/
def fixedReadAt (w : Nat) (bytes : Bytes) (d : Nat) : Bytes :=
  (bytes.drop (d * w)).take w

/-- Modelled from the spec: the range-checked indexed lookup of spec §4.1. -/
def fixedGetitem (w : Nat) (bytes : Bytes) (dc d : Nat) :
    Except ColErr Bytes :=
  if dc ≤ d then .error .rangeKind else .ok (fixedReadAt w bytes d)

/-- Modelled from the spec: iteration walks the `w`-byte slots in order. -/
def fixedIter (w : Nat) (bytes : Bytes) (dc : Nat) : List Bytes :=
  chunksOf w dc bytes

theorem fixedReadAt_finish (w : Nat) (adds : List (Nat × Bytes)) {dc d : Nat}
    (hval : ∀ p ∈ adds, p.2.length = w) (hd : d < dc) :
    fixedReadAt w (fixedFinish w adds dc) d
      = (lookupDoc adds d).getD (List.replicate w 0) := by
  have hw : ∀ x ∈ materialize adds (List.replicate w 0) dc, x.length = w := by
    intro x hx
    rcases mem_materialize x hx with h | ⟨p, hp, rfl⟩
    · simp [h]
    · exact hval p hp
  have hlen : d < (materialize adds (List.replicate w 0) dc).length := by
    simpa [materialize_length] using hd
  rw [fixedReadAt, fixedFinish, flatten_slot _ hw hlen,
      materialize_getD adds (List.replicate w 0) [] hd]

theorem fixedIter_getD (w : Nat) (bytes : Bytes) {dc d : Nat} (hd : d < dc) :
    (fixedIter w bytes dc).getD d [] = fixedReadAt w bytes d := by
  rw [fixedIter, chunksOf_getD w bytes hd, fixedReadAt]

theorem lookupDoc_mem_pair {α : Type} {adds : List (Nat × α)} {d : Nat}
    {v : α} (h : lookupDoc adds d = some v) : (d, v) ∈ adds := by
  simp only [lookupDoc, Option.map_eq_some'] at h
  rcases h with ⟨p, hp, rfl⟩
  have h2 : p.1 = d := by simpa using List.find?_some hp
  have hm := List.mem_of_find?_eq_some hp
  cases p
  simpa [← h2] using hm

/-! ### Variable-width bytes column (spec §4.2)

Two parallel regions: a growing value blob and a per-document
`(offset, length)` table fixed at finish time, sized for `doc_count` entries;
missing docnums get a zero-length entry resolving to the empty default. -/

/-- Modelled from the spec: the per-written-docnum entries
`(docnum, offset, length)` the variable-bytes writer accumulates while the
blob grows (`whoosh.columns.VarBytesColumn` is not among the files at hand). -/
def varEntries (adds : List (Nat × Bytes)) (off : Nat) :
    List (Nat × Nat × Nat) :=
  match adds with
  | [] => []
  | (d, v) :: rest => (d, off, v.length) :: varEntries rest (off + v.length)

/-- Modelled from the spec: the value blob is the concatenation of the added
values in add order. -/
def varBlob (adds : List (Nat × Bytes)) : Bytes :=
  (adds.map Prod.snd).flatten

/-- A finished variable-bytes column: blob plus the per-document
`(offset, length)` table. -/
structure VarData where
  blob : Bytes
  table : List (Nat × Nat)

/-- Modelled from the spec: `finish` sizes the table for `doc_count` entries,
zero-length entries for missing docnums. -/
def varFinish (adds : List (Nat × Bytes)) (dc : Nat) : VarData :=
  { blob := varBlob adds
    table := (List.range dc).map (fun d =>
      match (varEntries adds 0).find? (fun e => e.1 == d) with
      | some e => (e.2.1, e.2.2)
      | none => (0, 0)) }

/-- Modelled from the spec: lookup slices the blob at the docnum's table
entry. -/
def varReadAt (data : VarData) (d : Nat) : Bytes :=
  ((data.blob.drop (data.table.getD d (0, 0)).1).take
    (data.table.getD d (0, 0)).2)

/-- Modelled from the spec: the range-checked indexed lookup of spec §4.1. -/
def varGetitem (data : VarData) (dc d : Nat) : Except ColErr Bytes :=
  if dc ≤ d then .error .rangeKind else .ok (varReadAt data d)

/-- Modelled from the spec: iteration walks the table in docnum order. -/
def varIter (data : VarData) : List Bytes :=
  data.table.map (fun e => (data.blob.drop e.1).take e.2)

theorem varEntries_fst (adds : List (Nat × Bytes)) (off : Nat) :
    (varEntries adds off).map Prod.fst = docnums adds := by
  induction adds generalizing off with
  | nil => rfl
  | cons p rest ih =>
    cases p
    simp [varEntries, docnums] at *
    exact ih _

theorem varEntries_spec {d : Nat} {v : Bytes} (adds : List (Nat × Bytes))
    (pre : Bytes) (hnd : (docnums adds).Nodup) (hdv : (d, v) ∈ adds) :
    ∃ off, (varEntries adds pre.length).find? (fun e => e.1 == d)
        = some (d, off, v.length) ∧
      ((pre ++ varBlob adds).drop off).take v.length = v := by
  induction adds generalizing pre with
  | nil => cases hdv
  | cons p rest ih =>
    rcases List.mem_cons.mp hdv with h | h
    · subst h
      refine ⟨pre.length, ?_, ?_⟩
      · rw [varEntries, List.find?_cons_of_pos _ (by simp)]
      · rw [show varBlob ((d, v) :: rest) = v ++ varBlob rest by
              simp [varBlob]]
        rw [List.drop_left, List.take_left]
    · have hne : p.1 ≠ d := by
        intro hd2
        have hmem2 : d ∈ docnums rest := List.mem_map_of_mem Prod.fst h
        exact (List.nodup_cons.mp hnd).1 (hd2 ▸ hmem2)
      have hrest : (docnums rest).Nodup := (List.nodup_cons.mp hnd).2
      rcases p with ⟨d0, v0⟩
      rcases ih (pre ++ v0) hrest h with ⟨off, hfind, hslice⟩
      refine ⟨off, ?_, ?_⟩
      · rw [varEntries, List.find?_cons_of_neg _ (by simpa using hne)]
        rw [List.length_append] at hfind
        exact hfind
      · rw [show varBlob ((d0, v0) :: rest) = v0 ++ varBlob rest by
              simp [varBlob]]
        rw [← List.append_assoc]
        exact hslice

theorem varReadAt_finish (adds : List (Nat × Bytes)) {dc d : Nat}
    (h : strictIncr adds) (hd : d < dc) :
    varReadAt (varFinish adds dc) d = (lookupDoc adds d).getD [] := by
  have hrange : d < (List.range dc).length := by simpa using hd
  have htable : (varFinish adds dc).table.getD d (0, 0)
      = (match (varEntries adds 0).find? (fun e => e.1 == d) with
         | some e => (e.2.1, e.2.2)
         | none => (0, 0)) := by
    rw [varFinish]
    rw [getD_map_of_lt _ (List.range dc) hrange (0, 0) 0]
    congr 1
    rw [List.getD_eq_getElem?_getD, List.getElem?_range hd]
    rfl
  cases hld : lookupDoc adds d with
  | some v =>
    have hmem := lookupDoc_mem_pair hld
    have := varEntries_spec adds [] (strictIncr_nodup h) hmem
    rcases this with ⟨off, hfind, hslice⟩
    simp only [List.length_nil] at hfind
    rw [varReadAt, htable, hfind]
    simpa using hslice
  | none =>
    have hfind : (varEntries adds 0).find? (fun e => e.1 == d) = none := by
      rw [List.find?_eq_none]
      intro e he hbeq
      have hed : e.1 = d := by simpa using hbeq
      have : e.1 ∈ (varEntries adds 0).map Prod.fst :=
        List.mem_map_of_mem Prod.fst he
      rw [varEntries_fst] at this
      have hds : lookupDoc adds d ≠ none := by
        rw [hed] at this
        rcases List.mem_map.mp this with ⟨p, hp, hpd⟩
        intro hnone
        have : adds.find? (fun q => q.1 == d) = none := by
          cases hfq : adds.find? (fun q => q.1 == d) with
          | none => rfl
          | some q => rw [lookupDoc, hfq] at hnone; cases hnone
        rw [List.find?_eq_none] at this
        exact this p hp (by simpa using hpd)
      exact hds hld
    rw [varReadAt, htable, hfind]
    simp

theorem varIter_getD (data : VarData) {d : Nat} (hd : d < data.table.length) :
    (varIter data).getD d [] = varReadAt data d := by
  rw [varIter, getD_map_of_lt _ _ hd [] (0, 0), varReadAt]

theorem varFinish_table_length (adds : List (Nat × Bytes)) (dc : Nat) :
    (varFinish adds dc).table.length = dc := by
  simp [varFinish]

/-! ### Dictionary-encoded reference column (spec §4.3)

A deduplicating dictionary (unique value → integer reference) built
incrementally; per-document storage is a reference into the array of unique
values.  Hard cap of 65535 distinct references; once the dictionary is full,
new unique values are dropped to the empty default with a diagnostic warning
the first time and a summary warning at finish. -/

/-- The hard cap on distinct dictionary references (spec §4.3). -/
def refCap : Nat := 65535

/-- Index of the first occurrence of a value in an array. -/
def firstIdx {α : Type} [DecidableEq α] (v : α) : List α → Option Nat
  | [] => none
  | x :: xs => if x = v then some 0 else (firstIdx v xs).map (· + 1)

theorem firstIdx_eq_none {α : Type} [DecidableEq α] {v : α} {l : List α} :
    firstIdx v l = none ↔ v ∉ l := by
  induction l with
  | nil => simp [firstIdx]
  | cons x xs ih =>
    by_cases hx : x = v
    · subst hx
      simp [firstIdx]
    · simp [firstIdx, hx, Option.map_eq_none', ih, Ne.symm hx]

theorem firstIdx_getD {α : Type} [DecidableEq α] {b : α} {v : α}
    {l : List α} {i : Nat}
    (h : firstIdx v l = some i) : l.getD i b = v ∧ i < l.length := by
  induction l generalizing i with
  | nil => cases h
  | cons x xs ih =>
    by_cases hx : x = v
    · subst hx
      simp only [firstIdx, if_pos rfl] at h
      cases h
      simp
    · simp only [firstIdx, if_neg hx, Option.map_eq_some'] at h
      rcases h with ⟨j, hj, rfl⟩
      rcases ih hj with ⟨hg, hlt⟩
      constructor
      · simpa using hg
      · simpa using hlt

/-- Accumulating first-occurrence deduplication. -/
def fuFold {α : Type} [DecidableEq α] (acc : List α) : List α → List α
  | [] => acc
  | v :: vs => fuFold (if v ∈ acc then acc else acc ++ [v]) vs

/-- The distinct values of a list in first-occurrence order. -/
def firstUniques {α : Type} [DecidableEq α] (l : List α) : List α :=
  fuFold [] l

theorem fuFold_append {α : Type} [DecidableEq α] (acc l₁ l₂ : List α) :
    fuFold acc (l₁ ++ l₂) = fuFold (fuFold acc l₁) l₂ := by
  induction l₁ generalizing acc with
  | nil => rfl
  | cons v vs ih => simp [fuFold, ih]

theorem fuFold_pre {α : Type} [DecidableEq α] (acc l : List α) :
    ∃ t, fuFold acc l = acc ++ t := by
  induction l generalizing acc with
  | nil => exact ⟨[], by simp [fuFold]⟩
  | cons v vs ih =>
    by_cases hv : v ∈ acc
    · rcases ih acc with ⟨t, ht⟩
      exact ⟨t, by simp [fuFold, hv, ht]⟩
    · rcases ih (acc ++ [v]) with ⟨t, ht⟩
      exact ⟨[v] ++ t, by simp [fuFold, hv, ht]⟩

theorem mem_fuFold {α : Type} [DecidableEq α] {acc l : List α} {x : α} :
    x ∈ fuFold acc l ↔ x ∈ acc ∨ x ∈ l := by
  induction l generalizing acc with
  | nil => simp [fuFold]
  | cons v vs ih =>
    by_cases hv : v ∈ acc
    · rw [fuFold, if_pos hv, ih]
      constructor
      · rintro (h | h)
        · exact Or.inl h
        · exact Or.inr (List.mem_cons_of_mem _ h)
      · rintro (h | h)
        · exact Or.inl h
        · rcases List.mem_cons.mp h with rfl | h
          · exact Or.inl hv
          · exact Or.inr h
    · rw [fuFold, if_neg hv, ih]
      constructor
      · rintro (h | h)
        · rcases List.mem_append.mp h with h | h
          · exact Or.inl h
          · simp only [List.mem_singleton] at h
            exact Or.inr (h ▸ List.mem_cons_self _ _)
        · exact Or.inr (List.mem_cons_of_mem _ h)
      · rintro (h | h)
        · exact Or.inl (List.mem_append.mpr (Or.inl h))
        · rcases List.mem_cons.mp h with rfl | h
          · exact Or.inl (by simp)
          · exact Or.inr h

theorem fuFold_nodup {α : Type} [DecidableEq α] {acc l : List α}
    (h : acc.Nodup) : (fuFold acc l).Nodup := by
  induction l generalizing acc with
  | nil => exact h
  | cons v vs ih =>
    by_cases hv : v ∈ acc
    · rw [fuFold, if_pos hv]
      exact ih h
    · rw [fuFold, if_neg hv]
      refine ih ?_
      simpa [List.nodup_append, hv] using h

theorem firstUniques_nodup {α : Type} [DecidableEq α] (l : List α) :
    (firstUniques l).Nodup := fuFold_nodup List.nodup_nil

theorem mem_firstUniques {α : Type} [DecidableEq α] {l : List α} {x : α} :
    x ∈ firstUniques l ↔ x ∈ l := by
  rw [firstUniques, mem_fuFold]
  simp

theorem fuFold_of_disjoint_nodup {α : Type} [DecidableEq α] {acc l : List α}
    (hd : ∀ v ∈ l, v ∉ acc) (hn : l.Nodup) : fuFold acc l = acc ++ l := by
  induction l generalizing acc with
  | nil => simp [fuFold]
  | cons v vs ih =>
    have hv : v ∉ acc := hd v (List.mem_cons_self _ _)
    rw [fuFold, if_neg hv]
    rw [ih ?_ (List.nodup_cons.mp hn).2]
    · simp
    · intro x hx
      simp only [List.mem_append, List.mem_singleton]
      rintro (h | rfl)
      · exact hd x (List.mem_cons_of_mem _ hx) h
      · exact (List.nodup_cons.mp hn).1 hx

theorem firstUniques_of_nodup {α : Type} [DecidableEq α] {l : List α}
    (hn : l.Nodup) : firstUniques l = l := by
  rw [firstUniques, fuFold_of_disjoint_nodup (by simp) hn]
  simp

/-- Writer state of the reference column: the dictionary array (unique
values in first-occurrence order), one cell per written docnum (`some ref`,
or `none` where the value was dropped at the cap), whether the overflow
warning was already emitted, and the warnings emitted so far. -/
structure RefState where
  dict : List Bytes
  cells : List (Nat × Option Nat)
  warnedOnce : Bool
  warnings : Nat

/-- Modelled from the spec: a fresh reference-column write session
(`whoosh.columns.RefBytesColumn` is not among the files at hand). -/
def refInit : RefState := ⟨[], [], false, 0⟩

/-- Modelled from the spec: `Writer.add` interns the value if present,
registers it while the dictionary holds fewer than 65535 entries, and
otherwise drops it to the default, warning the first time (spec §4.3). -/
def refAdd (s : RefState) (d : Nat) (v : Bytes) : RefState :=
  match firstIdx v s.dict with
  | some r => { s with cells := s.cells ++ [(d, some r)] }
  | none =>
    if s.dict.length < refCap then
      { s with dict := s.dict ++ [v]
               cells := s.cells ++ [(d, some s.dict.length)] }
    else
      { dict := s.dict
        cells := s.cells ++ [(d, none)]
        warnedOnce := true
        warnings := s.warnings + (if s.warnedOnce then 0 else 1) }

/-- The whole write session, in add order. -/
def refAddAll (s : RefState) : List (Nat × Bytes) → RefState
  | [] => s
  | (d, v) :: rest => refAddAll (refAdd s d v) rest

/-- Modelled from the spec: `finish` emits a summary warning when values
were dropped (spec §4.3). -/
def refFinish (adds : List (Nat × Bytes)) : RefState :=
  let s := refAddAll refInit adds
  { s with warnings := s.warnings + (if s.warnedOnce then 1 else 0) }

/-- Modelled from the spec: the Reader resolves the docnum's cell through
the dictionary; absent or dropped docnums give the empty default. -/
def refReadAt (s : RefState) (d : Nat) : Bytes :=
  match s.cells.find? (fun c => c.1 == d) with
  | some (_, some r) => s.dict.getD r []
  | some (_, none) => []
  | none => []

/-- Modelled from the spec: the range-checked indexed lookup of spec §4.1. -/
def refGetitem (s : RefState) (dc d : Nat) : Except ColErr Bytes :=
  if dc ≤ d then .error .rangeKind else .ok (refReadAt s d)

/-- Modelled from the spec: iteration resolves every docnum in order. -/
def refIter (s : RefState) (dc : Nat) : List Bytes :=
  (List.range dc).map (refReadAt s)

/-- The dictionary evolution alone, per added value. -/
def dictFold (dict : List Bytes) : List Bytes → List Bytes
  | [] => dict
  | v :: vs => dictFold (if v ∈ dict then dict
      else if dict.length < refCap then dict ++ [v] else dict) vs

theorem refAdd_dict (s : RefState) (d : Nat) (v : Bytes) :
    (refAdd s d v).dict = (if v ∈ s.dict then s.dict
      else if s.dict.length < refCap then s.dict ++ [v] else s.dict) := by
  rcases hf : firstIdx v s.dict with _ | r
  · have hv : v ∉ s.dict := firstIdx_eq_none.mp hf
    rw [refAdd, hf]
    by_cases hlen : s.dict.length < refCap
    · simp [hlen, hv]
    · simp [hlen, hv]
  · have hv : v ∈ s.dict := by
      rcases firstIdx_getD (b := []) hf with ⟨hg, hlt⟩
      rw [← hg]
      rw [List.getD_eq_getElem?_getD, List.getElem?_eq_getElem hlt]
      exact List.getElem_mem hlt
    rw [refAdd, hf]
    simp [hv]

theorem refAddAll_dict (s : RefState) (adds : List (Nat × Bytes)) :
    (refAddAll s adds).dict = dictFold s.dict (adds.map Prod.snd) := by
  induction adds generalizing s with
  | nil => rfl
  | cons p rest ih =>
    rcases p with ⟨d, v⟩
    rw [refAddAll, ih, List.map_cons, dictFold, refAdd_dict]

theorem dictFold_take (seen vs : List Bytes) :
    dictFold ((fuFold [] seen).take refCap) vs
      = (fuFold [] (seen ++ vs)).take refCap := by
  induction vs generalizing seen with
  | nil => simp [dictFold]
  | cons v vs ih =>
    have key : (if v ∈ (fuFold [] seen).take refCap then (fuFold [] seen).take refCap
        else if ((fuFold [] seen).take refCap).length < refCap
          then (fuFold [] seen).take refCap ++ [v]
          else (fuFold [] seen).take refCap)
        = (fuFold [] (seen ++ [v])).take refCap := by
      set A := fuFold [] seen with hA
      have hsnoc : fuFold [] (seen ++ [v]) = if v ∈ A then A else A ++ [v] := by
        rw [fuFold_append, ← hA]
        simp only [fuFold]
        by_cases hv : v ∈ A
        · simp [hv]
        · simp [hv]
      by_cases hmem : v ∈ A.take refCap
      · have hvA : v ∈ A := List.mem_of_mem_take hmem
        rw [if_pos hmem, hsnoc, if_pos hvA]
      · rw [if_neg hmem]
        by_cases hlen : (A.take refCap).length < refCap
        · have hAlen : A.length < refCap := by
            rw [List.length_take] at hlen
            omega
          have hAtake : A.take refCap = A := List.take_of_length_le (by omega)
          have hvA : v ∉ A := by rw [← hAtake]; exact hmem
          rw [if_pos hlen, hsnoc, if_neg hvA, hAtake]
          rw [List.take_of_length_le]
          simp
          omega
        · have hAlen : refCap ≤ A.length := by
            rw [List.length_take] at hlen
            omega
          rw [if_neg hlen, hsnoc]
          by_cases hvA : v ∈ A
          · rw [if_pos hvA]
          · rw [if_neg hvA]
            rw [List.take_append_eq_append_take]
            rw [Nat.sub_eq_zero_of_le hAlen]
            simp
    rw [dictFold, key]
    have hassoc : seen ++ v :: vs = (seen ++ [v]) ++ vs := by simp
    rw [hassoc]
    exact ih (seen ++ [v])

/-- The finished dictionary is exactly the first `refCap` distinct added
values, in first-occurrence order. -/
theorem refAddAll_dict_eq (adds : List (Nat × Bytes)) :
    (refAddAll refInit adds).dict
      = (firstUniques (adds.map Prod.snd)).take refCap := by
  rw [refAddAll_dict]
  have h0 : (refInit.dict) = (fuFold [] ([] : List Bytes)).take refCap := rfl
  rw [h0, dictFold_take]
  rfl

theorem refAdd_cells (s : RefState) (d : Nat) (v : Bytes) :
    ∃ x, (refAdd s d v).cells = s.cells ++ [(d, x)] := by
  cases hf : firstIdx v s.dict with
  | some r => exact ⟨some r, by simp [refAdd, hf]⟩
  | none =>
    by_cases hlen : s.dict.length < refCap
    · exact ⟨some s.dict.length, by simp [refAdd, hf, hlen]⟩
    · exact ⟨none, by simp [refAdd, hf, hlen]⟩

theorem refAddAll_cells (s : RefState) (adds : List (Nat × Bytes)) :
    ∃ t, (refAddAll s adds).cells = s.cells ++ t ∧
      t.map Prod.fst = docnums adds := by
  induction adds generalizing s with
  | nil => exact ⟨[], by simp [refAddAll, docnums]⟩
  | cons p rest ih =>
    rcases p with ⟨d, v⟩
    rcases refAdd_cells s d v with ⟨x, hx⟩
    rcases ih (refAdd s d v) with ⟨t, ht, hmap⟩
    refine ⟨(d, x) :: t, ?_, ?_⟩
    · rw [refAddAll, ht, hx]
      simp
    · simp [hmap, docnums]

theorem refAdd_dict_pre (s : RefState) (d : Nat) (v : Bytes) :
    ∃ t, (refAdd s d v).dict = s.dict ++ t := by
  rw [refAdd_dict]
  by_cases hv : v ∈ s.dict
  · exact ⟨[], by simp [hv]⟩
  · by_cases hlen : s.dict.length < refCap
    · exact ⟨[v], by simp [hv, hlen]⟩
    · exact ⟨[], by simp [hv, hlen]⟩

theorem refAddAll_dict_pre (s : RefState) (adds : List (Nat × Bytes)) :
    ∃ t, (refAddAll s adds).dict = s.dict ++ t := by
  induction adds generalizing s with
  | nil => exact ⟨[], by simp [refAddAll]⟩
  | cons p rest ih =>
    rcases p with ⟨d, v⟩
    rcases refAdd_dict_pre s d v with ⟨t1, ht1⟩
    rcases ih (refAdd s d v) with ⟨t2, ht2⟩
    exact ⟨t1 ++ t2, by rw [refAddAll, ht2, ht1, List.append_assoc]⟩

theorem refAddAll_dict_full (s : RefState) (adds : List (Nat × Bytes))
    (h : ¬ s.dict.length < refCap) : (refAddAll s adds).dict = s.dict := by
  induction adds generalizing s with
  | nil => rfl
  | cons p rest ih =>
    rcases p with ⟨d, v⟩
    have hdict : (refAdd s d v).dict = s.dict := by
      rw [refAdd_dict]
      by_cases hv : v ∈ s.dict
      · simp [hv]
      · simp [hv, h]
    rw [refAddAll, ih (refAdd s d v) (by rw [hdict]; exact h), hdict]

theorem find?_cells {cells₁ : List (Nat × Option Nat)} {d : Nat}
    {x : Option Nat} {t : List (Nat × Option Nat)}
    (h1 : ∀ c ∈ cells₁, c.1 ≠ d) :
    (cells₁ ++ (d, x) :: t).find? (fun c => c.1 == d) = some (d, x) := by
  rw [List.find?_append]
  have hnone : cells₁.find? (fun c => c.1 == d) = none := by
    rw [List.find?_eq_none]
    intro c hc hbeq
    exact h1 c hc (by simpa using hbeq)
  rw [hnone]
  rw [Option.none_or]
  rw [List.find?_cons_of_pos _ (by simp)]

theorem refReadAt_of_find_some {s : RefState} {d r : Nat}
    (h : s.cells.find? (fun c => c.1 == d) = some (d, some r)) :
    refReadAt s d = s.dict.getD r [] := by
  rw [refReadAt, h]

theorem refReadAt_of_find_drop {s : RefState} {d : Nat}
    (h : s.cells.find? (fun c => c.1 == d) = some (d, none)) :
    refReadAt s d = [] := by
  rw [refReadAt, h]

/-- Read-back of a written docnum: the added value when it made it into the
dictionary, the empty default when it was dropped at the cap. -/
theorem refAddAll_read (adds : List (Nat × Bytes)) (s : RefState)
    (hnd : (s.cells.map Prod.fst ++ docnums adds).Nodup)
    {d : Nat} {v : Bytes} (hmem : (d, v) ∈ adds) :
    refReadAt (refAddAll s adds) d
      = if v ∈ (refAddAll s adds).dict then v else [] := by
  induction adds generalizing s with
  | nil => cases hmem
  | cons p rest ih =>
    rcases p with ⟨d0, v0⟩
    rcases List.mem_cons.mp hmem with h | h
    · have hd0 : d0 = d := congrArg Prod.fst h.symm
      have hv0 : v0 = v := congrArg Prod.snd h.symm
      subst hd0
      subst hv0
      have hd_not_s : ∀ c ∈ s.cells, c.1 ≠ d0 := by
        intro c hc hcd
        have hmem_c : d0 ∈ s.cells.map Prod.fst := hcd ▸ List.mem_map_of_mem Prod.fst hc
        have hsplit := (List.nodup_append.mp hnd).2.2
        exact hsplit hmem_c (by simp [docnums])
      rcases refAddAll_cells (refAdd s d0 v0) rest with ⟨t, ht, hmapt⟩
      have hd_not_t : ∀ c ∈ t, (c : Nat × Option Nat).1 ≠ d0 := by
        intro c hc hcd
        have hmem_c : d0 ∈ t.map Prod.fst := hcd ▸ List.mem_map_of_mem Prod.fst hc
        rw [hmapt] at hmem_c
        have hnd2 : (docnums ((d0, v0) :: rest)).Nodup :=
          (List.nodup_append.mp hnd).2.1
        have : (d0 :: docnums rest).Nodup := by simpa [docnums] using hnd2
        exact (List.nodup_cons.mp this).1 hmem_c
      cases hf : firstIdx v0 s.dict with
      | some r =>
        rcases firstIdx_getD (b := []) hf with ⟨hget, hlt⟩
        have hcells1 : (refAdd s d0 v0).cells = s.cells ++ [(d0, some r)] := by
          simp [refAdd, hf]
        have hdict1 : (refAdd s d0 v0).dict = s.dict := by
          simp [refAdd, hf]
        rcases refAddAll_dict_pre (refAdd s d0 v0) rest with ⟨t2, ht2⟩
        rw [hdict1] at ht2
        have hfind : ((refAddAll (refAdd s d0 v0) rest).cells).find?
            (fun c => c.1 == d0) = some (d0, some r) := by
          rw [ht, hcells1, List.append_assoc]
          exact find?_cells hd_not_s
        have hvmem : v0 ∈ (refAddAll (refAdd s d0 v0) rest).dict := by
          rw [ht2]
          refine List.mem_append.mpr (Or.inl ?_)
          rw [← hget, List.getD_eq_getElem?_getD, List.getElem?_eq_getElem hlt]
          exact List.getElem_mem hlt
        rw [refAddAll, if_pos hvmem, refReadAt_of_find_some hfind, ht2,
            List.getD_append _ _ _ _ hlt, hget]
      | none =>
        have hv_not : v0 ∉ s.dict := firstIdx_eq_none.mp hf
        by_cases hlen : s.dict.length < refCap
        · have hcells1 : (refAdd s d0 v0).cells
              = s.cells ++ [(d0, some s.dict.length)] := by
            simp [refAdd, hf, hlen]
          have hdict1 : (refAdd s d0 v0).dict = s.dict ++ [v0] := by
            simp [refAdd, hf, hlen]
          rcases refAddAll_dict_pre (refAdd s d0 v0) rest with ⟨t2, ht2⟩
          rw [hdict1] at ht2
          have hfind : ((refAddAll (refAdd s d0 v0) rest).cells).find?
              (fun c => c.1 == d0) = some (d0, some s.dict.length) := by
            rw [ht, hcells1, List.append_assoc]
            exact find?_cells hd_not_s
          have hlt2 : s.dict.length < (s.dict ++ [v0]).length := by simp
          have hget2 : ((s.dict ++ [v0]) ++ t2).getD s.dict.length [] = v0 := by
            rw [List.getD_append _ _ _ _ hlt2]
            rw [List.getD_eq_getElem?_getD]
            rw [List.getElem?_append_right (Nat.le_refl _)]
            simp
          have hvmem : v0 ∈ (refAddAll (refAdd s d0 v0) rest).dict := by
            rw [ht2]
            simp
          rw [refAddAll, if_pos hvmem, refReadAt_of_find_some hfind, ht2, hget2]
        · have hcells1 : (refAdd s d0 v0).cells = s.cells ++ [(d0, none)] := by
            simp [refAdd, hf, hlen]
          have hdict1 : (refAdd s d0 v0).dict = s.dict := by
            simp [refAdd, hf, hlen]
          have hfull : (refAddAll (refAdd s d0 v0) rest).dict = s.dict := by
            rw [refAddAll_dict_full (refAdd s d0 v0) rest (by rw [hdict1]; exact hlen),
                hdict1]
          have hfind : ((refAddAll (refAdd s d0 v0) rest).cells).find?
              (fun c => c.1 == d0) = some (d0, none) := by
            rw [ht, hcells1, List.append_assoc]
            exact find?_cells hd_not_s
          rw [refAddAll, if_neg (by rw [hfull]; exact hv_not),
              refReadAt_of_find_drop hfind]
    · rcases refAdd_cells s d0 v0 with ⟨x, hx⟩
      have hnd2 : ((refAdd s d0 v0).cells.map Prod.fst ++ docnums rest).Nodup := by
        rw [hx]
        have heq : (s.cells ++ [(d0, x)]).map Prod.fst ++ docnums rest
            = s.cells.map Prod.fst ++ docnums ((d0, v0) :: rest) := by
          simp [docnums]
        rw [heq]
        exact hnd
      rw [refAddAll]
      exact ih (refAdd s d0 v0) hnd2 h

/-- Read-back of a docnum that was never written: the empty default. -/
theorem refAddAll_read_none (adds : List (Nat × Bytes)) {d : Nat}
    (hd : d ∉ docnums adds) :
    refReadAt (refAddAll refInit adds) d = [] := by
  rcases refAddAll_cells refInit adds with ⟨t, ht, hmap⟩
  have hfind : ((refAddAll refInit adds).cells).find? (fun c => c.1 == d)
      = none := by
    rw [ht]
    rw [List.find?_eq_none]
    intro c hc hbeq
    have hcd : c.1 = d := by simpa using hbeq
    rcases List.mem_append.mp hc with hcl | hcr
    · cases hcl
    · have : c.1 ∈ t.map Prod.fst := List.mem_map_of_mem Prod.fst hcr
      rw [hmap, hcd] at this
      exact hd this
  rw [refReadAt, hfind]

/-- The warnings counter tracks the overflow flag: one warning exactly when
the first drop happened. -/
def warnInv (s : RefState) : Prop :=
  s.warnings = if s.warnedOnce then 1 else 0

theorem refAdd_warnInv {s : RefState} (h : warnInv s) (d : Nat) (v : Bytes) :
    warnInv (refAdd s d v) := by
  cases hf : firstIdx v s.dict with
  | some r => simpa [refAdd, hf, warnInv] using h
  | none =>
    by_cases hlen : s.dict.length < refCap
    · simpa [refAdd, hf, hlen, warnInv] using h
    · cases hw : s.warnedOnce with
      | true => simp only [warnInv, refAdd, hf] at *
                simp [hlen, hw, h]
      | false => simp only [warnInv, refAdd, hf] at *
                 simp [hlen, hw, h]

theorem refAddAll_warnInv {s : RefState} (h : warnInv s)
    (adds : List (Nat × Bytes)) : warnInv (refAddAll s adds) := by
  induction adds generalizing s with
  | nil => exact h
  | cons p rest ih =>
    rcases p with ⟨d, v⟩
    exact ih (refAdd_warnInv h d v)

theorem refAddAll_warnedOnce_mono {s : RefState} (h : s.warnedOnce = true)
    (adds : List (Nat × Bytes)) :
    (refAddAll s adds).warnedOnce = true := by
  induction adds generalizing s with
  | nil => exact h
  | cons p rest ih =>
    rcases p with ⟨d, v⟩
    refine ih ?_
    cases hf : firstIdx v s.dict with
    | some r => simpa [refAdd, hf] using h
    | none =>
      by_cases hlen : s.dict.length < refCap
      · simpa [refAdd, hf, hlen] using h
      · simp [refAdd, hf, hlen]

/-- Without an overflow, the dictionary evolves as unrestricted
first-occurrence deduplication. -/
theorem refAddAll_no_overflow (adds : List (Nat × Bytes)) (s : RefState)
    (h : (refAddAll s adds).warnedOnce = false) :
    (refAddAll s adds).dict = fuFold s.dict (adds.map Prod.snd) := by
  induction adds generalizing s with
  | nil => rfl
  | cons p rest ih =>
    rcases p with ⟨d, v⟩
    rw [refAddAll] at h ⊢
    rw [List.map_cons, fuFold]
    cases hf : firstIdx v s.dict with
    | some r =>
      have hv : v ∈ s.dict := by
        rcases firstIdx_getD (b := []) hf with ⟨hg, hlt⟩
        rw [← hg, List.getD_eq_getElem?_getD, List.getElem?_eq_getElem hlt]
        exact List.getElem_mem hlt
      have hdict1 : (refAdd s d v).dict = s.dict := by simp [refAdd, hf]
      rw [ih (refAdd s d v) h, hdict1, if_pos hv]
    | none =>
      have hv : v ∉ s.dict := firstIdx_eq_none.mp hf
      by_cases hlen : s.dict.length < refCap
      · have hdict1 : (refAdd s d v).dict = s.dict ++ [v] := by
          simp [refAdd, hf, hlen]
        rw [ih (refAdd s d v) h, hdict1, if_neg hv]
      · exfalso
        have hw : (refAdd s d v).warnedOnce = true := by
          simp [refAdd, hf, hlen]
        rw [refAddAll_warnedOnce_mono hw rest] at h
        cases h

theorem refFinish_dict (adds : List (Nat × Bytes)) :
    (refFinish adds).dict = (refAddAll refInit adds).dict := rfl

theorem refFinish_cells (adds : List (Nat × Bytes)) :
    (refFinish adds).cells = (refAddAll refInit adds).cells := rfl

theorem refFinish_readAt (adds : List (Nat × Bytes)) (d : Nat) :
    refReadAt (refFinish adds) d = refReadAt (refAddAll refInit adds) d := rfl

/-- A session with more than `refCap` distinct values warns exactly twice:
once at the first drop and once in the finish summary. -/
theorem refFinish_warnings_of_overflow (adds : List (Nat × Bytes))
    (hover : refCap < (firstUniques (adds.map Prod.snd)).length) :
    (refFinish adds).warnings = 2 := by
  have hinv : warnInv (refAddAll refInit adds) :=
    refAddAll_warnInv (by simp [warnInv, refInit]) adds
  cases hw : (refAddAll refInit adds).warnedOnce with
  | true =>
    rw [warnInv, hw, if_pos rfl] at hinv
    simp [refFinish, hw, hinv]
  | false =>
    exfalso
    have hdict := refAddAll_no_overflow adds refInit hw
    have heq := refAddAll_dict_eq adds
    rw [hdict] at heq
    have hfu : fuFold refInit.dict (adds.map Prod.snd)
        = firstUniques (adds.map Prod.snd) := rfl
    rw [hfu] at heq
    have hlen := congrArg List.length heq
    rw [List.length_take] at hlen
    omega

/-- A session that never overflows warns not at all. -/
theorem refFinish_warnings_of_no_overflow (adds : List (Nat × Bytes))
    (h : (refAddAll refInit adds).warnedOnce = false) :
    (refFinish adds).warnings = 0 := by
  have hinv : warnInv (refAddAll refInit adds) :=
    refAddAll_warnInv (by simp [warnInv, refInit]) adds
  rw [warnInv, h, if_neg (by simp)] at hinv
  simp [refFinish, h, hinv]

/-! ### Roaring bit column (spec §4.5)

Stores only the set of document numbers whose value is true, as sorted runs
of contiguous ranges; anything not in the set reads back false. -/

/-- Modelled from the spec: the roaring writer keeps the docnums added with
value true (`whoosh.columns.RoaringBitColumn` is not among the files at
hand). -/
def roarSet (adds : List (Nat × Bool)) : List Nat :=
  (adds.filter (fun p => p.2)).map Prod.fst

/-- Modelled from the spec: maximal runs `(start, length)` of contiguous
docnums — the run containers of the roaring layout. -/
def toRuns : List Nat → List (Nat × Nat)
  | [] => []
  | d :: ds =>
    match toRuns ds with
    | (s, l) :: rs =>
      if s = d + 1 then (d, l + 1) :: rs else (d, 1) :: (s, l) :: rs
    | [] => [(d, 1)]

/-- Membership in the run containers. -/
def runsContain (runs : List (Nat × Nat)) (d : Nat) : Bool :=
  runs.any (fun r => decide (r.1 ≤ d) && decide (d < r.1 + r.2))

/-- Modelled from the spec: `finish` compresses the true-set into runs. -/
def roarFinish (adds : List (Nat × Bool)) : List (Nat × Nat) :=
  toRuns (roarSet adds)

/-- Modelled from the spec: lookup is membership in the compressed set. -/
def roarReadAt (runs : List (Nat × Nat)) (d : Nat) : Bool :=
  runsContain runs d

/-- Modelled from the spec: the range-checked indexed lookup of spec §4.1. -/
def roarGetitem (runs : List (Nat × Nat)) (dc d : Nat) :
    Except ColErr Bool :=
  if dc ≤ d then .error .rangeKind else .ok (roarReadAt runs d)

/-- Modelled from the spec: iteration resolves every docnum in order. -/
def roarIter (runs : List (Nat × Nat)) (dc : Nat) : List Bool :=
  (List.range dc).map (roarReadAt runs)

theorem toRuns_nil_iff {ds : List Nat} : toRuns ds = [] ↔ ds = [] := by
  cases ds with
  | nil => simp [toRuns]
  | cons d ds =>
    simp only [toRuns]
    cases htr : toRuns ds with
    | nil => simp
    | cons r rs =>
      rcases r with ⟨s, l⟩
      by_cases hs : s = d + 1 <;> simp [hs]

theorem runsContain_toRuns (ds : List Nat) (d : Nat) :
    runsContain (toRuns ds) d = true ↔ d ∈ ds := by
  induction ds with
  | nil => simp [toRuns, runsContain]
  | cons d0 ds ih =>
    simp only [toRuns]
    cases htr : toRuns ds with
    | nil =>
      have hds : ds = [] := toRuns_nil_iff.mp htr
      subst hds
      simp [runsContain]
      omega
    | cons r rs =>
      rcases r with ⟨s, l⟩
      rw [htr] at ih
      dsimp only
      by_cases hs : s = d0 + 1
      · rw [if_pos hs]
        simp only [runsContain, List.any_cons, List.mem_cons] at *
        rw [← ih]
        subst hs
        constructor
        · intro h
          rcases Bool.or_eq_true _ _ |>.mp h with h | h
          · simp only [Bool.and_eq_true, decide_eq_true_eq] at h
            by_cases hd : d = d0
            · exact Or.inl hd
            · refine Or.inr (Bool.or_eq_true _ _ |>.mpr (Or.inl ?_))
              simp only [Bool.and_eq_true, decide_eq_true_eq]
              omega
          · exact Or.inr (Bool.or_eq_true _ _ |>.mpr (Or.inr h))
        · intro h
          rcases h with h | h
          · refine Bool.or_eq_true _ _ |>.mpr (Or.inl ?_)
            simp only [Bool.and_eq_true, decide_eq_true_eq]
            omega
          · rcases Bool.or_eq_true _ _ |>.mp h with h | h
            · refine Bool.or_eq_true _ _ |>.mpr (Or.inl ?_)
              simp only [Bool.and_eq_true, decide_eq_true_eq] at h ⊢
              omega
            · exact Bool.or_eq_true _ _ |>.mpr (Or.inr h)
      · rw [if_neg hs]
        simp only [runsContain, List.any_cons, List.mem_cons] at *
        rw [← ih]
        constructor
        · intro h
          rcases Bool.or_eq_true _ _ |>.mp h with h | h
          · simp only [Bool.and_eq_true, decide_eq_true_eq] at h
            exact Or.inl (by omega)
          · exact Or.inr h
        · intro h
          rcases h with h | h
          · refine Bool.or_eq_true _ _ |>.mpr (Or.inl ?_)
            simp only [Bool.and_eq_true, decide_eq_true_eq]
            omega
          · exact Bool.or_eq_true _ _ |>.mpr (Or.inr h)

theorem mem_roarSet {adds : List (Nat × Bool)} {d : Nat} :
    d ∈ roarSet adds ↔ (d, true) ∈ adds := by
  rw [roarSet]
  constructor
  · intro h
    rcases List.mem_map.mp h with ⟨p, hp, rfl⟩
    rcases List.mem_filter.mp hp with ⟨hmem, hpred⟩
    have : p.2 = true := by simpa using hpred
    rcases p with ⟨d0, b⟩
    subst this
    exact hmem
  · intro h
    refine List.mem_map.mpr ⟨(d, true), ?_, rfl⟩
    exact List.mem_filter.mpr ⟨h, by simp⟩

/-- The roaring read-back: true exactly for docnums explicitly added true. -/
theorem roarReadAt_finish (adds : List (Nat × Bool)) (d : Nat) :
    roarReadAt (roarFinish adds) d = true ↔ (d, true) ∈ adds := by
  rw [roarReadAt, roarFinish, runsContain_toRuns, mem_roarSet]

/-! ### Sparse integer column (spec §4.6)

Only the added `(docnum, value)` pairs, sorted by docnum; lookup is a binary
search over the side table, iteration merges the table with defaults. -/

/-- Modelled from the spec: binary search over the sorted side table
(`whoosh.columns.SparseIntColumn` is not among the files at hand). -/
def bsearch (tbl : List (Nat × Int)) (d : Nat) (lo hi : Nat) : Option Int :=
  if h : lo < hi then
    let mid := (lo + hi) / 2
    let e := tbl.getD mid (0, 0)
    if e.1 = d then some e.2
    else if e.1 < d then bsearch tbl d (mid + 1) hi
    else bsearch tbl d lo mid
  else none
termination_by hi - lo
decreasing_by
  all_goals omega

/-- Modelled from the spec: the sparse side table is the added pairs
themselves, sorted by docnum. -/
def sparseFinish (adds : List (Nat × Int)) : List (Nat × Int) := adds

/-- Modelled from the spec: lookup binary-searches the table, default 0
where absent. -/
def sparseReadAt (tbl : List (Nat × Int)) (d : Nat) : Int :=
  (bsearch tbl d 0 tbl.length).getD 0

/-- Modelled from the spec: the range-checked indexed lookup of spec §4.1. -/
def sparseGetitem (tbl : List (Nat × Int)) (dc d : Nat) :
    Except ColErr Int :=
  if dc ≤ d then .error .rangeKind else .ok (sparseReadAt tbl d)

/-- Modelled from the spec: iteration merges the sparse table with implicit
defaults for the gaps, in docnum order. -/
def sparseIterGo (tbl : List (Nat × Int)) (i : Nat) : Nat → List Int
  | 0 => []
  | n + 1 =>
    match tbl with
    | [] => 0 :: sparseIterGo [] (i + 1) n
    | (d, v) :: rest =>
      if d = i then v :: sparseIterGo rest (i + 1) n
      else 0 :: sparseIterGo ((d, v) :: rest) (i + 1) n

/-- Modelled from the spec: a full iteration of `doc_count` values. -/
def sparseIter (tbl : List (Nat × Int)) (dc : Nat) : List Int :=
  sparseIterGo tbl 0 dc

/-- Sortedness of the side table: docnums pairwise increasing. -/
def tblSorted (tbl : List (Nat × Int)) : Prop :=
  (tbl.map Prod.fst).Pairwise (· < ·)

theorem tblSorted_getElem {tbl : List (Nat × Int)} (h : tblSorted tbl)
    {i j : Nat} (hi : i < tbl.length) (hj : j < tbl.length) (hij : i < j) :
    (tbl.get ⟨i, hi⟩).1 < (tbl.get ⟨j, hj⟩).1 := by
  rw [tblSorted, List.pairwise_iff_getElem] at h
  have := h i j (by simpa using hi) (by simpa using hj) hij
  simpa using this

theorem bsearch_correct (tbl : List (Nat × Int)) (hs : tblSorted tbl)
    (d : Nat) (lo hi : Nat) (hhi : hi ≤ tbl.length)
    (hlow : ∀ i, (h2 : i < tbl.length) → i < lo → (tbl.get ⟨i, h2⟩).1 < d)
    (hhigh : ∀ i, (h2 : i < tbl.length) → hi ≤ i → d < (tbl.get ⟨i, h2⟩).1) :
    bsearch tbl d lo hi = lookupDoc tbl d := by
  by_cases hlt : lo < hi
  · have hmidlt : (lo + hi) / 2 < tbl.length := by omega
    have hget : tbl.getD ((lo + hi) / 2) (0, 0)
        = tbl.get ⟨(lo + hi) / 2, hmidlt⟩ := by
      rw [List.getD_eq_getElem?_getD, List.getElem?_eq_getElem hmidlt]
      rfl
    rw [bsearch, dif_pos hlt]
    simp only [hget]
    set mid := (lo + hi) / 2 with hmid
    set e := tbl.get ⟨mid, hmidlt⟩ with he
    by_cases heq : e.1 = d
    · rw [if_pos heq]
      have hnd : (docnums tbl).Nodup := by
        rw [tblSorted] at hs
        exact hs.imp Nat.ne_of_lt
      have hmem : (d, e.2) ∈ tbl := by
        rw [← heq]
        have : e ∈ tbl := by
          rw [he]
          exact List.get_mem tbl mid hmidlt
        simpa using this
      rw [lookupDoc_eq_some hnd hmem]
    · rw [if_neg heq]
      by_cases hlt2 : e.1 < d
      · rw [if_pos hlt2]
        refine bsearch_correct tbl hs d (mid + 1) hi hhi ?_ hhigh
        intro i h2 hilt
        rcases Nat.lt_or_ge i mid with him | him
        · exact Nat.lt_trans (tblSorted_getElem hs h2 hmidlt him) hlt2
        · have : i = mid := by omega
          subst this
          exact hlt2
      · rw [if_neg hlt2]
        have hgt : d < e.1 := by omega
        refine bsearch_correct tbl hs d lo mid (by omega) hlow ?_
        intro i h2 hge
        rcases Nat.lt_or_ge mid i with him | him
        · exact Nat.lt_trans hgt (tblSorted_getElem hs hmidlt h2 him)
        · have : i = mid := by omega
          subst this
          exact hgt
  · rw [bsearch, dif_neg hlt]
    have hnone : ∀ p ∈ tbl, p.1 ≠ d := by
      intro p hp
      rcases List.mem_iff_get.mp hp with ⟨⟨i, hilen⟩, rfl⟩
      rcases Nat.lt_or_ge i lo with him | him
      · exact Nat.ne_of_lt (hlow i hilen him)
      · exact Nat.ne_of_gt (hhigh i hilen (by omega))
    have hfind : tbl.find? (fun p => p.1 == d) = none := by
      rw [List.find?_eq_none]
      intro p hp hbeq
      exact hnone p hp (by simpa using hbeq)
    rw [lookupDoc, hfind]
    rfl
termination_by hi - lo
decreasing_by
  all_goals omega

theorem sparseReadAt_finish (adds : List (Nat × Int)) (hs : tblSorted adds)
    (d : Nat) :
    sparseReadAt (sparseFinish adds) d = (lookupDoc adds d).getD 0 := by
  rw [sparseReadAt, sparseFinish,
      bsearch_correct adds hs d 0 adds.length (Nat.le_refl _)
        (fun i h2 hi => by omega) (fun i h2 hi => by omega)]

theorem strictIncr_tblSorted {adds : List (Nat × Int)} (h : strictIncr adds) :
    tblSorted adds := h

theorem tblSorted_rest {p : Nat × Int} {rest : List (Nat × Int)}
    (h : tblSorted (p :: rest)) : tblSorted rest := by
  rw [tblSorted, List.map_cons, List.pairwise_cons] at h
  exact h.2

theorem tblSorted_head_lt {p : Nat × Int} {rest : List (Nat × Int)}
    (h : tblSorted (p :: rest)) : ∀ q ∈ rest, p.1 < q.1 := by
  rw [tblSorted, List.map_cons, List.pairwise_cons] at h
  intro q hq
  exact h.1 q.1 (List.mem_map_of_mem Prod.fst hq)

theorem sparseIterGo_eq (n : Nat) :
    ∀ (tbl : List (Nat × Int)) (i : Nat), tblSorted tbl →
    (∀ p ∈ tbl, i ≤ p.1) →
    sparseIterGo tbl i n
      = (List.range n).map (fun k => (lookupDoc tbl (i + k)).getD 0) := by
  induction n with
  | zero => simp [sparseIterGo]
  | succ n ih =>
    intro tbl i hs hge
    cases tbl with
    | nil =>
      rw [sparseIterGo, ih [] (i + 1) (by simp [tblSorted]) (by simp)]
      rw [List.range_succ_eq_map]
      simp [lookupDoc, Function.comp_def, List.map_const']
    | cons p rest =>
      rcases p with ⟨d, v⟩
      have hd_ge : i ≤ d := hge (d, v) (List.mem_cons_self _ _)
      by_cases hdi : d = i
      · subst hdi
        rw [sparseIterGo]
        rw [if_pos rfl]
        have hs2 : tblSorted rest := tblSorted_rest hs
        have hge2 : ∀ p ∈ rest, d + 1 ≤ p.1 := by
          intro q hq
          exact tblSorted_head_lt hs q hq
        rw [ih rest (d + 1) hs2 hge2, List.range_succ_eq_map, List.map_cons]
        congr 1
        · have : lookupDoc ((d, v) :: rest) (d + 0) = some v := by
            rw [lookupDoc, List.find?_cons_of_pos _ (by simp)]
            rfl
          rw [this]
          rfl
        · rw [List.map_map]
          refine List.map_congr_left ?_
          intro k hk
          have hskip : lookupDoc ((d, v) :: rest) (d + (k + 1))
              = lookupDoc rest (d + (k + 1)) := by
            rw [lookupDoc, lookupDoc, List.find?_cons_of_neg _ (by simp)]
          simp only [Function.comp_def]
          rw [hskip]
          have harith : d + 1 + k = d + (k + 1) := by omega
          rw [harith]
      · have hd_gt : i < d := by omega
        rw [sparseIterGo]
        rw [if_neg hdi]
        have hge2 : ∀ q ∈ (d, v) :: rest, i + 1 ≤ q.1 := by
          intro q hq
          rcases List.mem_cons.mp hq with rfl | hq
          · omega
          · have := tblSorted_head_lt hs q hq
            simp only at this
            omega
        rw [ih ((d, v) :: rest) (i + 1) hs hge2, List.range_succ_eq_map,
            List.map_cons]
        congr 1
        · have hnone : lookupDoc ((d, v) :: rest) (i + 0) = none := by
            apply lookupDoc_eq_none
            intro hmem
            rcases List.mem_map.mp hmem with ⟨q, hq, hqd⟩
            have := hge2 q hq
            omega
          rw [hnone]
          rfl
        · rw [List.map_map]
          refine List.map_congr_left ?_
          intro k hk
          simp only [Function.comp]
          have : i + 1 + k = i + (k + 1) := by omega
          rw [this]

theorem sparseIter_eq (adds : List (Nat × Int)) (hs : strictIncr adds)
    (dc : Nat) :
    sparseIter (sparseFinish adds) dc = materialize adds 0 dc := by
  rw [sparseIter, sparseFinish,
      sparseIterGo_eq dc adds 0 (strictIncr_tblSorted hs)
        (fun p _ => Nat.zero_le _)]
  rw [materialize]
  refine List.map_congr_left ?_
  intro k hk
  rw [Nat.zero_add]

/-! ### Compact integer column (spec §4.6)

Minimal fixed byte-width for the observed value range, computed at finish
after scanning the stored slots; packed contiguously, one slot per document,
unwritten slots holding the default 0. -/

/-- Minimum of the stored slots (0 on an empty column). -/
def listMin : List Int → Int
  | [] => 0
  | [x] => x
  | x :: y :: xs => min x (listMin (y :: xs))

/-- Maximum of the stored slots (0 on an empty column). -/
def listMax : List Int → Int
  | [] => 0
  | [x] => x
  | x :: y :: xs => max x (listMax (y :: xs))

theorem listMin_le {l : List Int} : ∀ x ∈ l, listMin l ≤ x := by
  induction l with
  | nil => simp
  | cons a l ih =>
    intro x hx
    cases l with
    | nil =>
      rcases List.mem_cons.mp hx with rfl | hx
      · exact le_refl _
      · cases hx
    | cons b t =>
      rcases List.mem_cons.mp hx with rfl | hx
      · exact min_le_left _ _
      · exact le_trans (min_le_right _ _) (ih x hx)

theorem le_listMax {l : List Int} : ∀ x ∈ l, x ≤ listMax l := by
  induction l with
  | nil => simp
  | cons a l ih =>
    intro x hx
    cases l with
    | nil =>
      rcases List.mem_cons.mp hx with rfl | hx
      · exact le_refl _
      · cases hx
    | cons b t =>
      rcases List.mem_cons.mp hx with rfl | hx
      · exact le_max_left _ _
      · exact le_trans (ih x hx) (le_max_right _ _)

/-- The least byte width (at least 1) that can hold `n`. -/
def bytesFor (n : Nat) : Nat :=
  if n < 256 then 1 else 1 + bytesFor (n / 256)
termination_by n
decreasing_by
  omega

theorem lt_pow_bytesFor (n : Nat) : n < 256 ^ bytesFor n := by
  by_cases h : n < 256
  · rw [bytesFor, if_pos h]
    simpa using h
  · rw [bytesFor, if_neg h]
    have ih := lt_pow_bytesFor (n / 256)
    have h2 : n / 256 + 1 ≤ 256 ^ bytesFor (n / 256) := ih
    have h3 : n < 256 * (n / 256 + 1) := by omega
    calc n < 256 * (n / 256 + 1) := h3
      _ ≤ 256 * 256 ^ bytesFor (n / 256) := by
          exact Nat.mul_le_mul_left 256 h2
      _ = 256 ^ (1 + bytesFor (n / 256)) := by
          rw [Nat.pow_add]
termination_by n
decreasing_by
  omega

/-- A finished compact-int column: base value, slot width, packed bytes. -/
structure CompactData where
  lo : Int
  w : Nat
  packed : Bytes

/-- Modelled from the spec: `CompactIntColumn.finish` scans the stored
slots for min/max, picks the minimal byte width for the range, and packs
one offset-encoded slot per document
(`whoosh.columns.CompactIntColumn` is not among the files at hand). -/
def compactFinish (adds : List (Nat × Int)) (dc : Nat) : CompactData :=
  let m := materialize adds 0 dc
  let lo := listMin m
  let w := bytesFor (listMax m - lo).toNat
  { lo := lo
    w := w
    packed := (m.map (fun v => toLE w (v - lo).toNat)).flatten }

/-- Modelled from the spec: O(1) lookup at `docnum * width`. -/
def compactReadAt (c : CompactData) (d : Nat) : Int :=
  c.lo + (fromLE ((c.packed.drop (d * c.w)).take c.w) : Int)

/-- Modelled from the spec: the range-checked indexed lookup of spec §4.1. -/
def compactGetitem (c : CompactData) (dc d : Nat) : Except ColErr Int :=
  if dc ≤ d then .error .rangeKind else .ok (compactReadAt c d)

/-- Modelled from the spec: iteration walks the packed slots in order. -/
def compactIter (c : CompactData) (dc : Nat) : List Int :=
  (chunksOf c.w dc c.packed).map (fun ch => c.lo + (fromLE ch : Int))

theorem compactReadAt_finish (adds : List (Nat × Int)) {dc d : Nat}
    (hd : d < dc) :
    compactReadAt (compactFinish adds dc) d = (lookupDoc adds d).getD 0 := by
  set m := materialize adds 0 dc with hm
  set lo := listMin m with hlo
  set w := bytesFor (listMax m - lo).toNat with hw
  have hlen : d < (m.map (fun v => toLE w (v - lo).toNat)).length := by
    simpa [hm, materialize_length] using hd
  have hwid : ∀ x ∈ m.map (fun v => toLE w (v - lo).toNat), x.length = w := by
    intro x hx
    rcases List.mem_map.mp hx with ⟨v, _, rfl⟩
    exact toLE_length w _
  have hchunk : (((compactFinish adds dc).packed.drop (d * w)).take w)
      = toLE w (((m.getD d 0) - lo).toNat) := by
    rw [compactFinish]
    rw [flatten_slot _ hwid hlen,
        getD_map_of_lt _ _ (by simpa [hm, materialize_length] using hd) [] 0]
  have hmem : m.getD d 0 ∈ m := by
    rw [List.getD_eq_getElem?_getD,
        List.getElem?_eq_getElem (by simpa [hm, materialize_length] using hd)]
    exact List.getElem_mem _
  have hlo_le : lo ≤ m.getD d 0 := listMin_le _ hmem
  have hle_hi : m.getD d 0 ≤ listMax m := le_listMax _ hmem
  have hrange : ((m.getD d 0) - lo).toNat < 256 ^ w := by
    have h1 : ((m.getD d 0) - lo).toNat ≤ (listMax m - lo).toNat := by
      omega
    exact lt_of_le_of_lt h1 (lt_pow_bytesFor _)
  have hcw : (compactFinish adds dc).w = w := rfl
  have hclo : (compactFinish adds dc).lo = lo := rfl
  rw [compactReadAt, hcw, hclo, hchunk, fromLE_toLE_of_lt hrange]
  rw [← materialize_getD adds 0 0 hd, ← hm]
  omega

theorem compactIter_getD (c : CompactData) {dc d : Nat} (hd : d < dc) :
    (compactIter c dc).getD d 0 = compactReadAt c d := by
  rw [compactIter,
      getD_map_of_lt _ _ (by simpa [chunksOf_length] using hd) 0 [],
      chunksOf_getD _ _ hd, compactReadAt]

/-! ### Annotation column (spec §4.9)

Per-document ordered lists of labeled intervals `(label, start, end)`;
labels are interned into a table ordered by first occurrence across the
write session; unwritten or out-of-range docnums yield an empty list rather
than failing. -/

/-- A labeled interval `(label, start, end)`; labels are numbered. -/
abbrev Anno := Nat × Nat × Nat

/-- Writer state: the interned label table and one row per written docnum
holding label-reference triples. -/
structure AnnState where
  labels : List Nat
  rows : List (Nat × List Anno)

/-- Modelled from the spec: intern a label, appending it on first
occurrence (`whoosh.columns.AnnotationColumn` is not among the files at
hand). -/
def annInternOne (labels : List Nat) (lab : Nat) : List Nat × Nat :=
  match firstIdx lab labels with
  | some i => (labels, i)
  | none => (labels ++ [lab], labels.length)

/-- Modelled from the spec: intern one document's interval list. -/
def annInternList (labels : List Nat) : List Anno → List Nat × List Anno
  | [] => (labels, [])
  | (lab, s, e) :: rest =>
    let q := annInternOne labels lab
    let r := annInternList q.1 rest
    (r.1, (q.2, s, e) :: r.2)

/-- Modelled from the spec: `Writer.add` of one document's intervals. -/
def annAdd (st : AnnState) (d : Nat) (annos : List Anno) : AnnState :=
  { labels := (annInternList st.labels annos).1
    rows := st.rows ++ [(d, (annInternList st.labels annos).2)] }

/-- The whole write session, in add order. -/
def annAddAll (st : AnnState) : List (Nat × List Anno) → AnnState
  | [] => st
  | (d, annos) :: rest => annAddAll (annAdd st d annos) rest

/-- Modelled from the spec: a finished annotation column. -/
def annFinish (adds : List (Nat × List Anno)) : AnnState :=
  annAddAll ⟨[], []⟩ adds

/-- Modelled from the spec: `Reader.names()` — the distinct labels in
first-occurrence order. -/
def annNames (st : AnnState) : List Nat := st.labels

/-- Modelled from the spec: lookup resolves the docnum's row through the
label table; absent docnums give the empty list. -/
def annReadAt (st : AnnState) (d : Nat) : List Anno :=
  match st.rows.find? (fun r => r.1 == d) with
  | some (_, enc) => enc.map (fun a => (st.labels.getD a.1 0, a.2.1, a.2.2))
  | none => []

/-- Modelled from the spec (§4.9): indexed lookup never range-checks —
docnums beyond `doc_count` yield an empty list rather than failing. -/
def annGetitem (st : AnnState) (dc d : Nat) : Except ColErr (List Anno) :=
  .ok (annReadAt st d)

/-- Modelled from the spec: iteration resolves every docnum in order. -/
def annIter (st : AnnState) (dc : Nat) : List (List Anno) :=
  (List.range dc).map (annReadAt st)

theorem annInternOne_spec (labels : List Nat) (lab : Nat) :
    (annInternOne labels lab).1
        = (if lab ∈ labels then labels else labels ++ [lab]) ∧
      ((annInternOne labels lab).1.getD (annInternOne labels lab).2 0 = lab ∧
        (annInternOne labels lab).2 < (annInternOne labels lab).1.length) := by
  cases hf : firstIdx lab labels with
  | some i =>
    rcases firstIdx_getD (b := 0) hf with ⟨hg, hlt⟩
    have hmem : lab ∈ labels := by
      rw [← hg, List.getD_eq_getElem?_getD, List.getElem?_eq_getElem hlt]
      exact List.getElem_mem hlt
    refine ⟨by simp [annInternOne, hf, hmem], ?_, ?_⟩
    · simp only [annInternOne, hf]
      exact hg
    · simp only [annInternOne, hf]
      exact hlt
  | none =>
    have hmem : lab ∉ labels := firstIdx_eq_none.mp hf
    refine ⟨by simp [annInternOne, hf, hmem], ?_, ?_⟩
    · simp only [annInternOne, hf]
      rw [List.getD_eq_getElem?_getD, List.getElem?_append_right (Nat.le_refl _)]
      simp
    · simp [annInternOne, hf]

theorem annInternList_labels (labels : List Nat) (annos : List Anno) :
    (annInternList labels annos).1 = fuFold labels (annos.map Prod.fst) := by
  induction annos generalizing labels with
  | nil => rfl
  | cons a rest ih =>
    rcases a with ⟨lab, s, e⟩
    rw [annInternList]
    rw [List.map_cons, fuFold, ← (annInternOne_spec labels lab).1]
    exact ih _

theorem annInternList_labels_pre (labels : List Nat) (annos : List Anno) :
    ∃ t, (annInternList labels annos).1 = labels ++ t := by
  rw [annInternList_labels]
  exact fuFold_pre labels _

theorem annInternList_decode (annos : List Anno) (labels : List Nat)
    (ext : List Nat) (hpre : ∃ t, ext = (annInternList labels annos).1 ++ t) :
    (annInternList labels annos).2.map
        (fun a => (ext.getD a.1 0, a.2.1, a.2.2)) = annos := by
  induction annos generalizing labels with
  | nil => rfl
  | cons a rest ih =>
    rcases a with ⟨lab, s, e⟩
    rcases annInternOne_spec labels lab with ⟨_, hget, hlt⟩
    rcases hpre with ⟨t, ht⟩
    rw [annInternList] at ht ⊢
    simp only [List.map_cons]
    congr 1
    · rcases annInternList_labels_pre (annInternOne labels lab).1 rest
        with ⟨t2, ht2⟩
      have hext : ext = (annInternOne labels lab).1 ++ (t2 ++ t) := by
        rw [ht]
        dsimp only
        rw [ht2, List.append_assoc]
      rw [hext, List.getD_append _ _ _ _ hlt, hget]
    · refine ih _ ⟨t, ?_⟩
      rw [ht]

theorem annAddAll_labels_pre (st : AnnState) (adds : List (Nat × List Anno)) :
    ∃ t, (annAddAll st adds).labels = st.labels ++ t := by
  induction adds generalizing st with
  | nil => exact ⟨[], by simp [annAddAll]⟩
  | cons p rest ih =>
    rcases p with ⟨d, annos⟩
    rcases annInternList_labels_pre st.labels annos with ⟨t1, ht1⟩
    rcases ih (annAdd st d annos) with ⟨t2, ht2⟩
    refine ⟨t1 ++ t2, ?_⟩
    rw [annAddAll, ht2]
    have : (annAdd st d annos).labels = st.labels ++ t1 := ht1
    rw [this, List.append_assoc]

theorem annAddAll_rows (st : AnnState) (adds : List (Nat × List Anno)) :
    ∃ t, (annAddAll st adds).rows = st.rows ++ t ∧
      t.map Prod.fst = docnums adds := by
  induction adds generalizing st with
  | nil => exact ⟨[], by simp [annAddAll, docnums]⟩
  | cons p rest ih =>
    rcases p with ⟨d, annos⟩
    rcases ih (annAdd st d annos) with ⟨t, ht, hmap⟩
    refine ⟨(d, (annInternList st.labels annos).2) :: t, ?_, ?_⟩
    · rw [annAddAll, ht]
      simp [annAdd]
    · simp [hmap, docnums]

/-- Read-back of a written docnum: exactly the interval list added for it. -/
theorem annAddAll_read (adds : List (Nat × List Anno)) (st : AnnState)
    (hnd : (st.rows.map Prod.fst ++ docnums adds).Nodup)
    {d : Nat} {annos : List Anno} (hmem : (d, annos) ∈ adds) :
    annReadAt (annAddAll st adds) d = annos := by
  induction adds generalizing st with
  | nil => cases hmem
  | cons p rest ih =>
    rcases p with ⟨d0, a0⟩
    rcases List.mem_cons.mp hmem with h | h
    · have hd0 : d0 = d := congrArg Prod.fst h.symm
      have ha0 : a0 = annos := congrArg Prod.snd h.symm
      subst hd0
      subst ha0
      have hd_not_s : ∀ c ∈ st.rows, (c : Nat × List Anno).1 ≠ d0 := by
        intro c hc hcd
        have hmem_c : d0 ∈ st.rows.map Prod.fst :=
          hcd ▸ List.mem_map_of_mem Prod.fst hc
        exact (List.nodup_append.mp hnd).2.2 hmem_c (by simp [docnums])
      rcases annAddAll_rows (annAdd st d0 a0) rest with ⟨t, ht, hmapt⟩
      have hfind : ((annAddAll (annAdd st d0 a0) rest).rows).find?
          (fun r => r.1 == d0) = some (d0, (annInternList st.labels a0).2) := by
        rw [ht]
        have hrows : (annAdd st d0 a0).rows
            = st.rows ++ [(d0, (annInternList st.labels a0).2)] := rfl
        rw [hrows, List.append_assoc]
        rw [List.find?_append]
        have hnone : st.rows.find? (fun r => r.1 == d0) = none := by
          rw [List.find?_eq_none]
          intro c hc hbeq
          exact hd_not_s c hc (by simpa using hbeq)
        rw [hnone, Option.none_or]
        rw [List.cons_append, List.find?_cons_of_pos _ (by simp)]
      rw [annAddAll, annReadAt, hfind]
      refine annInternList_decode a0 st.labels _ ?_
      rcases annAddAll_labels_pre (annAdd st d0 a0) rest with ⟨t2, ht2⟩
      refine ⟨t2, ?_⟩
      rw [ht2]
      rfl
    · have hnd2 : ((annAdd st d0 a0).rows.map Prod.fst ++ docnums rest).Nodup := by
        have hrows : (annAdd st d0 a0).rows
            = st.rows ++ [(d0, (annInternList st.labels a0).2)] := rfl
        rw [hrows]
        have heq : (st.rows ++ [(d0, (annInternList st.labels a0).2)]).map Prod.fst
            ++ docnums rest
            = st.rows.map Prod.fst ++ docnums ((d0, a0) :: rest) := by
          simp [docnums]
        rw [heq]
        exact hnd
      rw [annAddAll]
      exact ih (annAdd st d0 a0) hnd2 h

/-- Read-back of an unwritten (or out-of-range) docnum: the empty list. -/
theorem annFinish_read_none (adds : List (Nat × List Anno)) {d : Nat}
    (hd : d ∉ docnums adds) : annReadAt (annFinish adds) d = [] := by
  rcases annAddAll_rows ⟨[], []⟩ adds with ⟨t, ht, hmap⟩
  have hfind : ((annFinish adds).rows).find? (fun r => r.1 == d) = none := by
    rw [annFinish, ht, List.find?_eq_none]
    intro c hc hbeq
    have hcd : c.1 = d := by simpa using hbeq
    rcases List.mem_append.mp hc with hcl | hcr
    · cases hcl
    · have : c.1 ∈ t.map Prod.fst := List.mem_map_of_mem Prod.fst hcr
      rw [hmap, hcd] at this
      exact hd this
  rw [annFinish] at hfind ⊢
  rw [annReadAt, hfind]

/-- `names()` is the distinct labels of the session in first-occurrence
order. -/
theorem annFinish_names (adds : List (Nat × List Anno)) :
    annNames (annFinish adds)
      = firstUniques ((adds.map (fun p => p.2.map Prod.fst)).flatten) := by
  rw [annNames, firstUniques]
  have main : ∀ (adds2 : List (Nat × List Anno)) (st : AnnState),
      (annAddAll st adds2).labels
        = fuFold st.labels ((adds2.map (fun p => p.2.map Prod.fst)).flatten) := by
    intro adds2
    induction adds2 with
    | nil => intro st; rfl
    | cons p rest ih =>
      intro st
      rcases p with ⟨d, annos⟩
      rw [annAddAll, ih (annAdd st d annos), List.map_cons, List.flatten_cons,
          fuFold_append]
      have : (annAdd st d annos).labels = fuFold st.labels (annos.map Prod.fst) :=
        annInternList_labels st.labels annos
      rw [this]
  rw [annFinish, main adds ⟨[], []⟩]

/-! ### Path column (spec §4.10)

Each value is stored as a shared-prefix length against the previous path
plus the suffix bytes, with a periodic full-path reset to bound
reconstruction cost; a drop-in replacement for the variable-bytes column. -/

/-- Length of the common prefix of two byte strings. -/
def cplen : Bytes → Bytes → Nat
  | a :: as, b :: bs => if a = b then 1 + cplen as bs else 0
  | _, _ => 0

/-- The reset period: every `pathK`-th entry stores the full path
(spec: "periodically resetting the reference"; the period itself is an
implementation detail). -/
def pathK : Nat := 16

/-- Modelled from the spec: encode values as `(prefixLen, suffix)` against
the previous value, resetting every `pathK` entries
(`whoosh.columns.PathColumn` is not among the files at hand). -/
def pathEncode (prev : Bytes) (i : Nat) : List Bytes → List (Nat × Bytes)
  | [] => []
  | v :: vs =>
    if i % pathK = 0 then (0, v) :: pathEncode v (i + 1) vs
    else (cplen prev v, v.drop (cplen prev v)) :: pathEncode v (i + 1) vs

/-- Modelled from the spec: sequential reconstruction of the stored paths. -/
def pathDecode (prev : Bytes) : List (Nat × Bytes) → List Bytes
  | [] => []
  | (p, suf) :: rest => (prev.take p ++ suf) :: pathDecode (prev.take p ++ suf) rest

/-- A finished path column: one `(docnum, prefixLen, suffix)` entry per
written docnum. -/
def pathFinish (adds : List (Nat × Bytes)) : List (Nat × Nat × Bytes) :=
  List.zip (docnums adds) (pathEncode [] 0 (adds.map Prod.snd))

/-- Modelled from the spec: lookup locates the docnum's entry and
reconstructs its path; unwritten docnums give the empty default. -/
def pathReadAt (tbl : List (Nat × Nat × Bytes)) (d : Nat) : Bytes :=
  match firstIdx d (tbl.map Prod.fst) with
  | some j => (pathDecode [] (tbl.map Prod.snd)).getD j []
  | none => []

/-- Modelled from the spec: the range-checked indexed lookup of spec §4.1. -/
def pathGetitem (tbl : List (Nat × Nat × Bytes)) (dc d : Nat) :
    Except ColErr Bytes :=
  if dc ≤ d then .error .rangeKind else .ok (pathReadAt tbl d)

/-- Modelled from the spec: iteration reconstructs every docnum in order. -/
def pathIter (tbl : List (Nat × Nat × Bytes)) (dc : Nat) : List Bytes :=
  (List.range dc).map (pathReadAt tbl)

theorem cplen_take (a b : Bytes) : a.take (cplen a b) = b.take (cplen a b) := by
  induction a generalizing b with
  | nil => cases b <;> simp [cplen]
  | cons x as ih =>
    cases b with
    | nil => simp [cplen]
    | cons y bs =>
      by_cases hxy : x = y
      · subst hxy
        simp only [cplen, if_pos rfl]
        rw [show 1 + cplen as bs = cplen as bs + 1 by omega]
        simp [ih bs]
      · simp [cplen, hxy]

theorem pathDecode_encode (vs : List Bytes) :
    ∀ (prev : Bytes) (i : Nat), pathDecode prev (pathEncode prev i vs) = vs := by
  induction vs with
  | nil => intro prev i; rfl
  | cons v rest ih =>
    intro prev i
    by_cases hi : i % pathK = 0
    · rw [pathEncode, if_pos hi, pathDecode]
      simp only [List.take_zero, List.nil_append]
      rw [ih v (i + 1)]
    · rw [pathEncode, if_neg hi, pathDecode]
      have hv : prev.take (cplen prev v) ++ v.drop (cplen prev v) = v := by
        rw [cplen_take]
        have hle : cplen prev v ≤ v.length := by
          induction prev generalizing v with
          | nil => cases v <;> simp [cplen]
          | cons x as ihp =>
            cases v with
            | nil => simp [cplen]
            | cons y bs =>
              by_cases hxy : x = y
              · simp only [cplen, if_pos hxy, List.length_cons]
                have := ihp bs
                omega
              · simp [cplen, hxy]
        exact List.take_append_drop _ v
      rw [hv, ih v (i + 1)]

theorem pathEncode_length (vs : List Bytes) (prev : Bytes) (i : Nat) :
    (pathEncode prev i vs).length = vs.length := by
  induction vs generalizing prev i with
  | nil => rfl
  | cons v rest ih =>
    by_cases hi : i % pathK = 0
    · rw [pathEncode, if_pos hi]
      simp [ih]
    · rw [pathEncode, if_neg hi]
      simp [ih]

theorem pathFinish_fst (adds : List (Nat × Bytes)) :
    (pathFinish adds).map Prod.fst = docnums adds := by
  rw [pathFinish, List.map_fst_zip]
  rw [pathEncode_length]
  simp [docnums]

theorem pathFinish_snd (adds : List (Nat × Bytes)) :
    (pathFinish adds).map Prod.snd = pathEncode [] 0 (adds.map Prod.snd) := by
  rw [pathFinish, List.map_snd_zip]
  rw [pathEncode_length]
  simp [docnums]

theorem pathReadAt_finish (adds : List (Nat × Bytes)) (h : strictIncr adds)
    (d : Nat) :
    pathReadAt (pathFinish adds) d = (lookupDoc adds d).getD [] := by
  rw [pathReadAt, pathFinish_fst]
  cases hf : firstIdx d (docnums adds) with
  | none =>
    have hd : d ∉ docnums adds := firstIdx_eq_none.mp hf
    rw [lookupDoc_eq_none hd]
    rfl
  | some j =>
    rcases firstIdx_getD (b := 0) hf with ⟨hg, hlt⟩
    have hlt2 : j < adds.length := by simpa [docnums] using hlt
    have hfst : (adds.get ⟨j, hlt2⟩).1 = d := by
      rw [← hg, List.getD_eq_getElem?_getD, List.getElem?_eq_getElem hlt]
      simp [docnums]
    have hmem : (d, (adds.get ⟨j, hlt2⟩).2) ∈ adds := by
      rw [← hfst]
      have hgm := List.get_mem adds j hlt2
      simpa using hgm
    rw [lookupDoc_eq_some (strictIncr_nodup h) hmem]
    dsimp only
    rw [pathFinish_snd, pathDecode_encode]
    rw [getD_map_of_lt Prod.snd adds hlt2 [] (0, [])]
    rw [List.getD_eq_getElem?_getD, List.getElem?_eq_getElem hlt2]
    rfl

/-! ### Bit column (spec §4.5)

One bit per document in a contiguous bitmap, packed eight to a byte;
O(1) lookup via bit indexing; default false. -/

/-- The byte value of up to eight bits, least significant first. -/
def bitsToNat : List Bool → Nat
  | [] => 0
  | b :: bs => (if b then 1 else 0) + 2 * bitsToNat bs

/-- Modelled from the spec: pack a bit sequence into bytes
(`whoosh.columns.BitColumn` is not among the files at hand). -/
def packBits (l : List Bool) : Bytes :=
  match l with
  | [] => []
  | b :: bs => bitsToNat ((b :: bs).take 8) :: packBits (bs.drop 7)
termination_by l.length
decreasing_by
  simp [List.length_drop]
  omega

/-- Modelled from the spec: the bit column's `finish` packs the
materialized bit per document. -/
def bitFinish (adds : List (Nat × Bool)) (dc : Nat) : Bytes :=
  packBits (materialize adds false dc)

/-- Modelled from the spec: O(1) lookup via byte and bit indexing. -/
def bitReadAt (bytes : Bytes) (d : Nat) : Bool :=
  (bytes.getD (d / 8) 0).testBit (d % 8)

/-- Modelled from the spec: the range-checked indexed lookup of spec §4.1. -/
def bitGetitem (bytes : Bytes) (dc d : Nat) : Except ColErr Bool :=
  if dc ≤ d then .error .rangeKind else .ok (bitReadAt bytes d)

/-- Modelled from the spec: iteration tests every bit in order. -/
def bitIter (bytes : Bytes) (dc : Nat) : List Bool :=
  (List.range dc).map (bitReadAt bytes)

theorem bitsToNat_testBit (l : List Bool) (k : Nat) :
    (bitsToNat l).testBit k = l.getD k false := by
  induction l generalizing k with
  | nil => simp [bitsToNat]
  | cons b bs ih =>
    cases k with
    | zero =>
      rw [bitsToNat, Nat.testBit_zero]
      cases b <;> simp [Nat.add_mul_mod_self_left]
    | succ k =>
      rw [bitsToNat, Nat.testBit_add_one]
      have hdiv : ((if b then 1 else 0) + 2 * bitsToNat bs) / 2 = bitsToNat bs := by
        cases b <;> simp <;> omega
      rw [hdiv, ih k]
      rfl

theorem packBits_getD (l : List Bool) (j : Nat) :
    (packBits l).getD j 0 = bitsToNat ((l.drop (8 * j)).take 8) := by
  induction j generalizing l with
  | zero =>
    cases l with
    | nil => simp [packBits, bitsToNat]
    | cons b bs => rw [packBits]; simp
  | succ j ih =>
    cases l with
    | nil => simp [packBits, bitsToNat]
    | cons b bs =>
      rw [packBits]
      rw [List.getD_cons_succ, ih (bs.drop 7)]
      rw [List.drop_drop]
      have harith : (b :: bs).drop (8 * (j + 1)) = bs.drop (8 * j + 7) := by
        have h8 : 8 * (j + 1) = (8 * j + 7) + 1 := by omega
        rw [h8]
        rfl
      rw [harith]
      have harith2 : 8 * j + 7 = 8 * j + 7 := rfl
      rw [Nat.add_comm (8 * j) 7]

theorem bitReadAt_finish (adds : List (Nat × Bool)) {dc d : Nat}
    (hd : d < dc) :
    bitReadAt (bitFinish adds dc) d = (lookupDoc adds d).getD false := by
  rw [bitReadAt, bitFinish, packBits_getD, bitsToNat_testBit]
  set m := materialize adds false dc with hm
  have hlen : d < m.length := by simpa [hm, materialize_length] using hd
  have hidx : d = 8 * (d / 8) + d % 8 := by omega
  have hmod : d % 8 < 8 := Nat.mod_lt _ (by norm_num)
  have h1 : ((m.drop (8 * (d / 8))).take 8).getD (d % 8) false
      = (m.drop (8 * (d / 8))).getD (d % 8) false := by
    rw [List.getD_eq_getElem?_getD, List.getD_eq_getElem?_getD,
        List.getElem?_take_of_lt hmod]
  have h2 : (m.drop (8 * (d / 8))).getD (d % 8) false = m.getD d false := by
    rw [List.getD_eq_getElem?_getD, List.getD_eq_getElem?_getD,
        List.getElem?_drop]
    rw [← hidx]
  rw [h1, h2, hm, materialize_getD adds false false hd]

/-! ### `Format` and `Format.index`, embedded from
`src/whoosh/postings/postform.py`

Token streams come from the external analysis pipeline, so a token is a
model input; Python float boosts are modelled as rationals. -/

/-- A token as `Format.index` consumes it: text (a code for the unicode
string), boost, position, character range and payload. -/
structure Tok where
  text : Nat
  boost : ℚ
  pos : Nat
  rangeStart : Nat
  rangeEnd : Nat
  payload : Nat

/-- `postform.Format`: the feature flags and the format's boost. -/
structure Format where
  hasLengths : Bool := false
  hasWeights : Bool := false
  hasPositions : Bool := false
  hasRanges : Bool := false
  hasPayloads : Bool := false
  boost : ℚ := 1

/-- One posting as built by `Format.index`, feature components `none` when
the format does not store them. -/
structure Posting where
  docid : Option Nat
  termbytes : Bytes
  length : Nat
  weight : Option ℚ
  positions : Option (List Nat)
  ranges : Option (List (Nat × Nat))
  payloads : Option (List Nat)

/-- Python's `sorted(termset)`: the distinct token texts in ascending
order. -/
def indexTerms (toks : List Tok) : List Nat :=
  List.insertionSort (· ≤ ·) ((toks.map Tok.text).dedup)

/-- `Format.index` (postform.py lines 106-189): analyze (the token stream is
given), count `fieldlen`, group per-text feature buffers in token order, and
build one posting per unique term in sorted text order.  `length` is always
`fieldlen`, whether or not the format stores lengths (see the source
comment).  `boost * f.boost` is only handed to the external analyzer
(`kwargs["field_boost"]`), so it does not appear in the result. -/
def Format.index (f : Format) (toBytes : Nat → Bytes) (toks : List Tok)
    (docid : Option Nat) (boost : ℚ := 1) : Nat × List Posting :=
  let fieldlen := toks.length
  (fieldlen,
    (indexTerms toks).map (fun t =>
      { docid := docid
        termbytes := toBytes t
        length := fieldlen
        weight := if f.hasWeights
          then some (((toks.filter (fun tk => tk.text == t)).map Tok.boost).sum)
          else none
        positions := if f.hasPositions
          then some ((toks.filter (fun tk => tk.text == t)).map Tok.pos)
          else none
        ranges := if f.hasRanges
          then some ((toks.filter (fun tk => tk.text == t)).map
            (fun tk => (tk.rangeStart, tk.rangeEnd)))
          else none
        payloads := if f.hasPayloads
          then some ((toks.filter (fun tk => tk.text == t)).map Tok.payload)
          else none }))

theorem indexTerms_sorted (toks : List Tok) :
    List.Sorted (· < ·) (indexTerms toks) := by
  have hsorted : List.Sorted (· ≤ ·) (indexTerms toks) :=
    List.sorted_insertionSort _ _
  have hnodup : (indexTerms toks).Nodup := by
    rw [indexTerms]
    exact (List.perm_insertionSort _ _).nodup_iff.mpr (List.nodup_dedup _)
  exact List.Pairwise.imp₂ (fun a b hle hne => lt_of_le_of_ne hle hne)
    hsorted hnodup

theorem indexTerms_mem (toks : List Tok) (t : Nat) :
    t ∈ indexTerms toks ↔ t ∈ toks.map Tok.text := by
  rw [indexTerms]
  rw [(List.perm_insertionSort _ _).mem_iff]
  exact List.mem_dedup

theorem indexTerms_length (toks : List Tok) :
    (indexTerms toks).length = (toks.map Tok.text).dedup.length := by
  rw [indexTerms]
  exact (List.perm_insertionSort _ _).length_eq

/-! ### Helper lemmas shared by the claim theorems -/

theorem range_map_getD {α : Type} (f : Nat → α) (b : α) {dc d : Nat}
    (hd : d < dc) : ((List.range dc).map f).getD d b = f d := by
  rw [getD_map_of_lt f _ (by simpa using hd) b 0,
      List.getD_eq_getElem?_getD, List.getElem?_range hd]
  rfl

theorem lookupDoc_lt_pow (w : Nat) {adds : List (Nat × Nat)}
    (hv : ∀ p ∈ adds, p.2 < 256 ^ w) (d : Nat) :
    (lookupDoc adds d).getD 0 < 256 ^ w := by
  cases hld : lookupDoc adds d with
  | none => exact pow_pos (by norm_num) w
  | some v =>
    rcases lookupDoc_mem hld with ⟨p, hp, rfl⟩
    simpa using hv p hp

theorem lookupDoc_bool {adds : List (Nat × Bool)} (h : strictIncr adds)
    {d : Nat} {b : Bool} :
    lookupDoc adds d = some b ↔ (d, b) ∈ adds := by
  constructor
  · exact lookupDoc_mem_pair
  · exact lookupDoc_eq_some (strictIncr_nodup h)

/-! ### Lookup over concatenations -/

theorem docnums_append {α : Type} (l1 l2 : List (Nat × α)) :
    docnums (l1 ++ l2) = docnums l1 ++ docnums l2 := by
  simp [docnums]

theorem find?_docnums_none {α : Type} {l : List (Nat × α)} {d : Nat}
    (h : d ∉ docnums l) : l.find? (fun p => p.1 == d) = none := by
  rw [List.find?_eq_none]
  intro p hp hbeq
  exact h (by
    have hpd : p.1 = d := by simpa using hbeq
    exact hpd ▸ List.mem_map_of_mem Prod.fst hp)

theorem lookupDoc_append_left {α : Type} {l1 : List (Nat × α)}
    (l2 : List (Nat × α)) {d : Nat} (h : d ∉ docnums l1) :
    lookupDoc (l1 ++ l2) d = lookupDoc l2 d := by
  simp [lookupDoc, List.find?_append, find?_docnums_none h]

theorem lookupDoc_append_right {α : Type} (l1 : List (Nat × α))
    {l2 : List (Nat × α)} {d : Nat} (h : d ∉ docnums l2) :
    lookupDoc (l1 ++ l2) d = lookupDoc l1 d := by
  simp [lookupDoc, List.find?_append, find?_docnums_none h]

theorem getD_replicate_none {α : Type} (n i : Nat) :
    (List.replicate n (none : Option α)).getD i none = none := by
  rw [List.getD_eq_getElem?_getD]
  rcases h : (List.replicate n (none : Option α))[i]? with _ | x
  · rfl
  · have hx : x ∈ List.replicate n (none : Option α) := by
      rw [List.getElem?_replicate] at h
      by_cases hi : i < n
      · rw [if_pos hi] at h
        injection h with h
        subst h
        simp [List.mem_replicate]
        omega
      · rw [if_neg hi] at h
        cases h
    rw [List.eq_of_mem_replicate hx]
    rfl

/-! ### Per-value compressed bytes column (spec §4.7)

Each document's value is compressed individually before being appended to
the blob; a per-document `(offset, length)` table records compressed-segment
boundaries, so random access decompresses exactly one value.  The spec
leaves byte layouts implementation-defined (§6); the model uses a concrete
run-length codec for the per-value compressor. -/

/-- Number of leading entries of the list equal to `b`, capped at `k`. -/
def countLead (b : Nat) : Nat → List Nat → Nat
  | _, [] => 0
  | 0, _ :: _ => 0
  | k + 1, c :: rest => if c = b then countLead b k rest + 1 else 0

/-- Modelled from the spec: the per-value compressor — run-length coding,
each maximal run (capped at 255 bytes) stored as a count byte then the value
byte (`whoosh.columns.CompressedBytesColumn` is not among the files at
hand). -/
def rleComp : List Nat → List Nat
  | [] => []
  | b :: rest =>
      (countLead b 254 rest + 1) :: b ::
        rleComp (rest.drop (countLead b 254 rest))
termination_by l => l.length
decreasing_by
  simp only [List.length_drop, List.length_cons]
  omega

/-- Modelled from the spec: the matching decompressor, expanding each
`(count, byte)` run. -/
def rleDecomp : List Nat → List Nat
  | n :: b :: rest => List.replicate n b ++ rleDecomp rest
  | _ => []

theorem countLead_take (b : Nat) (l : List Nat) :
    ∀ k : Nat, l.take (countLead b k l) = List.replicate (countLead b k l) b := by
  induction l with
  | nil =>
    intro k
    cases k <;> rfl
  | cons c rest ih =>
    intro k
    cases k with
    | zero => rfl
    | succ k =>
      by_cases hc : c = b
      · subst hc
        have hcl : countLead c (k + 1) (c :: rest) = countLead c k rest + 1 := by
          simp [countLead]
        rw [hcl, List.take_succ_cons, ih k, List.replicate_succ]
      · simp [countLead, hc]

theorem rleDecomp_comp_aux :
    ∀ (n : Nat) (l : List Nat), l.length ≤ n → rleDecomp (rleComp l) = l := by
  intro n
  induction n with
  | zero =>
    intro l h
    have hl : l = [] := List.eq_nil_of_length_eq_zero (Nat.le_zero.mp h)
    subst hl
    simp [rleComp, rleDecomp]
  | succ n ih =>
    intro l h
    cases l with
    | nil => simp [rleComp, rleDecomp]
    | cons b rest =>
      have hdrop : (rest.drop (countLead b 254 rest)).length ≤ n := by
        rw [List.length_drop]
        simp only [List.length_cons] at h
        omega
      rw [rleComp, rleDecomp, ih _ hdrop, List.replicate_succ,
          ← countLead_take b rest 254]
      simp [List.take_append_drop]

theorem rleDecomp_comp (l : List Nat) : rleDecomp (rleComp l) = l :=
  rleDecomp_comp_aux l.length l (Nat.le_refl _)

/-- Modelled from the spec: `finish` compresses each value individually and
lays the compressed segments out exactly as a variable-bytes column — a
blob of segments plus the per-document `(offset, length)` table. -/
def czFinish (adds : List (Nat × Bytes)) (dc : Nat) : VarData :=
  varFinish (adds.map (fun p => (p.1, rleComp p.2))) dc

/-- Modelled from the spec: random access slices exactly one compressed
segment and decompresses it; a zero-length segment yields the empty
default. -/
def czReadAt (data : VarData) (d : Nat) : Bytes :=
  rleDecomp (varReadAt data d)

/-- Modelled from the spec: the range-checked indexed lookup of spec §4.1. -/
def czGetitem (data : VarData) (dc d : Nat) : Except ColErr Bytes :=
  if dc ≤ d then .error .rangeKind else .ok (czReadAt data d)

/-- Modelled from the spec: iteration walks the table in docnum order,
decompressing each document's segment. -/
def czIter (data : VarData) : List Bytes :=
  (varIter data).map rleDecomp

theorem docnums_map_snd {α β : Type} (adds : List (Nat × α)) (f : α → β) :
    docnums (adds.map (fun p => (p.1, f p.2))) = docnums adds := by
  simp [docnums, List.map_map, Function.comp_def]

theorem strictIncr_map_snd {α β : Type} {adds : List (Nat × α)} (f : α → β)
    (h : strictIncr adds) : strictIncr (adds.map (fun p => (p.1, f p.2))) := by
  unfold strictIncr
  rw [docnums_map_snd]
  exact h

theorem lookupDoc_map_snd {α β : Type} (adds : List (Nat × α)) (f : α → β)
    (d : Nat) :
    lookupDoc (adds.map (fun p => (p.1, f p.2))) d
      = (lookupDoc adds d).map f := by
  induction adds with
  | nil => rfl
  | cons p rest ih =>
    by_cases hp : p.1 = d
    · simp only [lookupDoc, List.map_cons]
      rw [List.find?_cons_of_pos _ (by simpa using hp),
          List.find?_cons_of_pos _ (by simpa using hp)]
      rfl
    · have h1 : lookupDoc ((p.1, f p.2) :: rest.map (fun q => (q.1, f q.2))) d
          = lookupDoc (rest.map (fun q => (q.1, f q.2))) d := by
        simp only [lookupDoc]
        rw [List.find?_cons_of_neg _ (by simpa using hp)]
      have h2 : lookupDoc (p :: rest) d = lookupDoc rest d := by
        simp only [lookupDoc]
        rw [List.find?_cons_of_neg _ (by simpa using hp)]
      rw [List.map_cons, h1, h2]
      exact ih

theorem czReadAt_finish (adds : List (Nat × Bytes)) {dc d : Nat}
    (h : strictIncr adds) (hd : d < dc) :
    czReadAt (czFinish adds dc) d = (lookupDoc adds d).getD [] := by
  rw [czReadAt, czFinish,
      varReadAt_finish _ (strictIncr_map_snd rleComp h) hd,
      lookupDoc_map_snd adds rleComp d]
  cases lookupDoc adds d with
  | none => rfl
  | some v => exact rleDecomp_comp v

theorem czIter_getD (data : VarData) {d : Nat} (hd : d < data.table.length) :
    (czIter data).getD d [] = czReadAt data d := by
  rw [czIter, getD_map_of_lt rleDecomp _ (by simpa [varIter] using hd) [] [],
      varIter_getD data hd, czReadAt]

/-! ### Block-compressed structured column (spec §4.8)

Consecutive documents are grouped into fixed-size blocks; each block's
values are serialized and compressed as one unit, with a block index from
block-start docnum to the block.  Spec §6 leaves byte layouts
implementation-defined, so the model keeps each block as its list of
`(docnum, value)` records.  Indexed lookup resolves any docnum through the
block index — missing docnums inside or outside the addressed range give
the default, with no range check — and iteration proceeds block by block
from docnum 0 through the last written docnum, defaulted gaps included. -/

/-- Modelled from the spec: documents per block (minus one) — consecutive
added documents are grouped into fixed-size blocks of up to 32 records. -/
def blkK : Nat := 31

/-- Consecutive groups of at most `k + 1` pairs; every group nonempty. -/
def groupsOf {α : Type} (k : Nat) : List (Nat × α) → List (List (Nat × α))
  | [] => []
  | p :: rest => (p :: rest.take k) :: groupsOf k (rest.drop k)
termination_by l => l.length
decreasing_by
  simp only [List.length_drop, List.length_cons]
  omega

/-- A finished block-compressed column: the blocks, each holding its
documents' `(docnum, value)` records. -/
structure BlockData (α : Type) where
  blocks : List (List (Nat × α))

/-- Modelled from the spec: `finish` groups the added documents into
fixed-size blocks, each serialized and compressed as a single unit. -/
def bzFinish {α : Type} (adds : List (Nat × α)) : BlockData α :=
  ⟨groupsOf blkK adds⟩

/-- All document records of the column, in block order. -/
def bzPairs {α : Type} (bd : BlockData α) : List (Nat × α) :=
  bd.blocks.flatten

/-- Modelled from the spec: the block index maps each block's start docnum
to its block. -/
def blockIndex {α : Type} (blocks : List (List (Nat × α))) :
    List (Nat × List (Nat × α)) :=
  blocks.filterMap (fun blk =>
    match blk with
    | [] => none
    | (d, _) :: _ => some (d, blk))

def bzIndex {α : Type} (bd : BlockData α) : List (Nat × List (Nat × α)) :=
  blockIndex bd.blocks

/-- Modelled from the spec: locate the owning block — the last index entry
whose block-start docnum is at most the requested docnum. -/
def bzLocate {α : Type} (d : Nat) :
    List (Nat × List (Nat × α)) → Option (List (Nat × α))
  | [] => none
  | (s, blk) :: rest =>
      match bzLocate d rest with
      | some b => some b
      | none => if s ≤ d then some blk else none

/-- Modelled from the spec: random access locates the owning block via the
index, decompresses that block alone, and extracts the docnum's record;
docnums owned by no block resolve to the default `none`. -/
def bzReadAt {α : Type} (bd : BlockData α) (d : Nat) : Option α :=
  match bzLocate d (bzIndex bd) with
  | none => none
  | some blk => lookupDoc blk d

/-- Modelled from the spec: indexed lookup performs no range check — any
docnum resolves through the block index, defaulting where absent; the
reader's `doc_count` plays no part (`test_sparse_block_compressed`). -/
def bzGetitem {α : Type} (bd : BlockData α) (dc d : Nat) :
    Except ColErr (Option α) :=
  .ok (bzReadAt bd d)

/-- Modelled from the spec: block-by-block iteration — starting at `pos`,
each record is yielded at its docnum, every gap filled with defaults. -/
def gapIter {α : Type} : Nat → List (Nat × α) → List (Option α)
  | _, [] => []
  | pos, (d, v) :: rest =>
      List.replicate (d - pos) none ++ some v :: gapIter (d + 1) rest

/-- Modelled from the spec: full iteration runs from docnum 0 through the
last written docnum; the reader's `doc_count` plays no part. -/
def bzIter {α : Type} (bd : BlockData α) (dc : Nat) : List (Option α) :=
  gapIter 0 (bzPairs bd)

theorem groupsOf_flatten_aux {α : Type} (k : Nat) :
    ∀ (n : Nat) (l : List (Nat × α)), l.length ≤ n →
      (groupsOf k l).flatten = l := by
  intro n
  induction n with
  | zero =>
    intro l h
    have hl : l = [] := List.eq_nil_of_length_eq_zero (Nat.le_zero.mp h)
    subst hl
    simp [groupsOf]
  | succ n ih =>
    intro l h
    cases l with
    | nil => simp [groupsOf]
    | cons p rest =>
      have hdrop : (rest.drop k).length ≤ n := by
        rw [List.length_drop]
        simp only [List.length_cons] at h
        omega
      rw [groupsOf, List.flatten_cons, ih _ hdrop, List.cons_append,
          List.take_append_drop]

theorem groupsOf_flatten {α : Type} (k : Nat) (l : List (Nat × α)) :
    (groupsOf k l).flatten = l :=
  groupsOf_flatten_aux k l.length l (Nat.le_refl _)

theorem groupsOf_small {α : Type} {k : Nat} (p : Nat × α)
    (rest : List (Nat × α)) (h : rest.length ≤ k) :
    groupsOf k (p :: rest) = [p :: rest] := by
  rw [groupsOf, List.take_of_length_le h, List.drop_eq_nil_of_le h]
  simp [groupsOf]

theorem bzPairs_finish {α : Type} (adds : List (Nat × α)) :
    bzPairs (bzFinish adds) = adds :=
  groupsOf_flatten blkK adds

theorem blockIndex_cons_nil {α : Type} (rest : List (List (Nat × α))) :
    blockIndex (([] : List (Nat × α)) :: rest) = blockIndex rest := by
  simp [blockIndex]

theorem blockIndex_cons {α : Type} (s : Nat) (v : α) (btl : List (Nat × α))
    (rest : List (List (Nat × α))) :
    blockIndex (((s, v) :: btl) :: rest)
      = (s, (s, v) :: btl) :: blockIndex rest := by
  simp [blockIndex]

theorem blockIndex_mem_cons {α : Type} {blk : List (Nat × α)}
    {rest : List (List (Nat × α))} {s : Nat} {b : List (Nat × α)}
    (h : (s, b) ∈ blockIndex rest) : (s, b) ∈ blockIndex (blk :: rest) := by
  cases blk with
  | nil => rwa [blockIndex_cons_nil]
  | cons p btl =>
    rcases p with ⟨d0, v0⟩
    rw [blockIndex_cons]
    exact List.mem_cons_of_mem _ h

theorem blockIndex_start_mem {α : Type} {blocks : List (List (Nat × α))}
    {s : Nat} {b : List (Nat × α)} (h : (s, b) ∈ blockIndex blocks) :
    s ∈ docnums blocks.flatten := by
  rcases List.mem_filterMap.mp h with ⟨blk, hblk, hfn⟩
  cases blk with
  | nil => cases hfn
  | cons p btl =>
    rcases p with ⟨d0, v0⟩
    dsimp only at hfn
    injection hfn with hfn
    rw [Prod.mk.injEq] at hfn
    obtain ⟨rfl, rfl⟩ := hfn
    have hmem : ((d0, v0) : Nat × α) ∈ blocks.flatten :=
      List.mem_flatten.mpr ⟨(d0, v0) :: btl, hblk, List.mem_cons_self _ _⟩
    exact List.mem_map_of_mem Prod.fst hmem

theorem bzLocate_some {α : Type} {d : Nat} :
    ∀ {idx : List (Nat × List (Nat × α))} {b : List (Nat × α)},
      bzLocate d idx = some b → ∃ s, (s, b) ∈ idx ∧ s ≤ d := by
  intro idx
  induction idx with
  | nil =>
    intro b h
    cases h
  | cons e rest ih =>
    rcases e with ⟨s0, b0⟩
    intro b h
    rw [bzLocate] at h
    cases hr : bzLocate d rest with
    | some c =>
      rw [hr] at h
      dsimp only at h
      injection h with h
      subst h
      rcases ih hr with ⟨s, hmem, hle⟩
      exact ⟨s, List.mem_cons_of_mem _ hmem, hle⟩
    | none =>
      rw [hr] at h
      dsimp only at h
      by_cases hle : s0 ≤ d
      · rw [if_pos hle] at h
        injection h with h
        subst h
        exact ⟨s0, List.mem_cons_self _ _, hle⟩
      · rw [if_neg hle] at h
        cases h

theorem bzLocate_none {α : Type} {d : Nat} :
    ∀ {idx : List (Nat × List (Nat × α))}, bzLocate d idx = none →
      ∀ {s : Nat} {b : List (Nat × α)}, (s, b) ∈ idx → d < s := by
  intro idx
  induction idx with
  | nil =>
    intro _ s b hmem
    cases hmem
  | cons e rest ih =>
    rcases e with ⟨s0, b0⟩
    intro h s b hmem
    rw [bzLocate] at h
    cases hr : bzLocate d rest with
    | some c =>
      rw [hr] at h
      cases h
    | none =>
      rw [hr] at h
      dsimp only at h
      have hs0 : ¬ s0 ≤ d := by
        intro hle
        rw [if_pos hle] at h
        cases h
      rcases List.mem_cons.mp hmem with he | ht
      · rw [Prod.mk.injEq] at he
        obtain ⟨rfl, rfl⟩ := he
        omega
      · exact ih hr ht

theorem blockIndex_covers {α : Type} {d : Nat} :
    ∀ {blocks : List (List (Nat × α))},
      List.Pairwise (· < ·) (docnums blocks.flatten) →
      d ∈ docnums blocks.flatten →
      ∃ s b, (s, b) ∈ blockIndex blocks ∧ s ≤ d := by
  intro blocks
  induction blocks with
  | nil =>
    intro _ hd
    simp [docnums] at hd
  | cons blk rest ih =>
    intro hinc hd
    rw [List.flatten_cons, docnums_append] at hinc hd
    rcases List.mem_append.mp hd with h1 | h2
    · cases blk with
      | nil => simp [docnums] at h1
      | cons p btl =>
        rcases p with ⟨s0, v0⟩
        refine ⟨s0, (s0, v0) :: btl, ?_, ?_⟩
        · rw [blockIndex_cons]
          exact List.mem_cons_self _ _
        · have hb : List.Pairwise (· < ·) (s0 :: docnums btl) :=
            (List.pairwise_append.mp hinc).1
          have h1b : d ∈ s0 :: docnums btl := h1
          rcases List.mem_cons.mp h1b with he | ht
          · omega
          · have := (List.pairwise_cons.mp hb).1 d ht
            omega
    · rcases ih (List.pairwise_append.mp hinc).2.1 h2 with ⟨s, b, hmem, hle⟩
      exact ⟨s, b, blockIndex_mem_cons hmem, hle⟩

theorem bzLocate_flatten {α : Type} (d : Nat) :
    ∀ (blocks : List (List (Nat × α))),
      List.Pairwise (· < ·) (docnums blocks.flatten) →
      (match bzLocate d (blockIndex blocks) with
       | none => none
       | some blk => lookupDoc blk d) = lookupDoc blocks.flatten d := by
  intro blocks
  induction blocks with
  | nil =>
    intro _
    rfl
  | cons blk rest ih =>
    intro hinc
    rw [List.flatten_cons] at hinc ⊢
    rw [docnums_append] at hinc
    have hblk_pw := (List.pairwise_append.mp hinc).1
    have hrest_pw := (List.pairwise_append.mp hinc).2.1
    have hcross := (List.pairwise_append.mp hinc).2.2
    cases blk with
    | nil =>
      rw [blockIndex_cons_nil, List.nil_append]
      exact ih hrest_pw
    | cons p btl =>
      rcases p with ⟨s, v⟩
      rw [blockIndex_cons, bzLocate]
      cases hr : bzLocate d (blockIndex rest) with
      | some b =>
        dsimp only
        have hib := ih hrest_pw
        rw [hr] at hib
        dsimp only at hib
        rw [hib]
        obtain ⟨s2, hmem2, hs2d⟩ := bzLocate_some hr
        have hs2 : s2 ∈ docnums rest.flatten := blockIndex_start_mem hmem2
        have hnot : d ∉ docnums ((s, v) :: btl) := by
          intro hd
          have := hcross d hd s2 hs2
          omega
        exact (lookupDoc_append_left _ hnot).symm
      | none =>
        dsimp only
        by_cases hsd : s ≤ d
        · rw [if_pos hsd]
          dsimp only
          have hnot : d ∉ docnums rest.flatten := by
            intro hd
            obtain ⟨s2, b2, hmem2, hs2le⟩ := blockIndex_covers hrest_pw hd
            have := bzLocate_none hr hmem2
            omega
          exact (lookupDoc_append_right _ hnot).symm
        · rw [if_neg hsd]
          dsimp only
          have hnot : d ∉ docnums (((s, v) :: btl) ++ rest.flatten) := by
            rw [docnums_append]
            intro hd
            rcases List.mem_append.mp hd with h1 | h2
            · have h1b : d ∈ s :: docnums btl := h1
              rcases List.mem_cons.mp h1b with he | ht
              · omega
              · have hblk_pw2 : List.Pairwise (· < ·) (s :: docnums btl) :=
                  hblk_pw
                have := (List.pairwise_cons.mp hblk_pw2).1 d ht
                omega
            · have hs_mem : s ∈ docnums ((s, v) :: btl) := by
                simp [docnums]
              have := hcross s hs_mem d h2
              omega
          rw [lookupDoc_eq_none hnot]

theorem bzReadAt_lookup {α : Type} (bd : BlockData α) (d : Nat)
    (hinc : List.Pairwise (· < ·) (docnums (bzPairs bd))) :
    bzReadAt bd d = lookupDoc (bzPairs bd) d :=
  bzLocate_flatten d bd.blocks hinc

theorem bzReadAt_finish {α : Type} (adds : List (Nat × α))
    (h : strictIncr adds) (d : Nat) :
    bzReadAt (bzFinish adds) d = lookupDoc adds d := by
  have hp : bzPairs (bzFinish adds) = adds := bzPairs_finish adds
  have hinc : List.Pairwise (· < ·) (docnums (bzPairs (bzFinish adds))) := by
    rw [hp]
    exact h
  rw [bzReadAt_lookup (bzFinish adds) d hinc, hp]

theorem gapIter_getD {α : Type} (pairs : List (Nat × α)) :
    ∀ (pos d : Nat), List.Pairwise (· < ·) (docnums pairs) →
      (∀ e ∈ docnums pairs, pos ≤ e) →
      (gapIter pos pairs).getD d none = lookupDoc pairs (pos + d) := by
  induction pairs with
  | nil =>
    intro pos d _ _
    rfl
  | cons p rest ih =>
    rcases p with ⟨d0, v⟩
    intro pos d hinc hge
    have hinc2 : List.Pairwise (· < ·) (d0 :: docnums rest) := hinc
    have hpos : pos ≤ d0 := hge d0 (by simp [docnums])
    have hge2 : ∀ e ∈ docnums rest, d0 + 1 ≤ e := by
      intro e he
      have := (List.pairwise_cons.mp hinc2).1 e he
      omega
    have hrest_pw : List.Pairwise (· < ·) (docnums rest) :=
      (List.pairwise_cons.mp hinc2).2
    rw [gapIter]
    rcases Nat.lt_trichotomy d (d0 - pos) with hlt | heq | hgt
    · have hnot : pos + d ∉ docnums ((d0, v) :: rest) := by
        intro hmem
        have hmem2 : pos + d ∈ d0 :: docnums rest := hmem
        rcases List.mem_cons.mp hmem2 with he | ht
        · omega
        · have := hge2 _ ht
          omega
      rw [lookupDoc_eq_none hnot, List.getD_eq_getElem?_getD,
          List.getElem?_append_left (by simpa using hlt),
          List.getElem?_replicate, if_pos hlt]
      rfl
    · have hd0 : pos + d = d0 := by omega
      have hhead : lookupDoc ((d0, v) :: rest) (pos + d) = some v := by
        simp only [lookupDoc]
        rw [List.find?_cons_of_pos _ (by simp [hd0])]
        rfl
      rw [hhead, List.getD_eq_getElem?_getD,
          List.getElem?_append_right (by simp [heq]),
          show d - (List.replicate (d0 - pos) (none : Option α)).length = 0 by
            simp [heq]]
      simp
    · have hk : d - (List.replicate (d0 - pos) (none : Option α)).length
          = (d - (d0 - pos) - 1) + 1 := by
        simp only [List.length_replicate]
        omega
      have hstep : lookupDoc ((d0, v) :: rest) (pos + d)
          = lookupDoc rest (pos + d) := by
        simp only [lookupDoc]
        rw [List.find?_cons_of_neg _ (by simp; omega)]
      rw [hstep, List.getD_eq_getElem?_getD,
          List.getElem?_append_right (by simp; omega),
          hk, List.getElem?_cons_succ, ← List.getD_eq_getElem?_getD,
          ih (d0 + 1) (d - (d0 - pos) - 1) hrest_pw hge2,
          show d0 + 1 + (d - (d0 - pos) - 1) = pos + d by omega]

theorem bzIter_getD {α : Type} (adds : List (Nat × α)) (dc d : Nat)
    (h : strictIncr adds) :
    (bzIter (bzFinish adds) dc).getD d none = lookupDoc adds d := by
  rw [bzIter, bzPairs_finish]
  have := gapIter_getD adds 0 d h (fun e _ => Nat.zero_le e)
  simpa using this

theorem gapIter_length_last {α : Type} (pairs : List (Nat × α)) :
    ∀ (pos : Nat) (q : Nat × α), List.Pairwise (· < ·) (docnums pairs) →
      (∀ e ∈ docnums pairs, pos ≤ e) →
      pairs.getLast? = some q →
      (gapIter pos pairs).length = q.1 + 1 - pos := by
  induction pairs with
  | nil =>
    intro pos q _ _ hlast
    cases hlast
  | cons p rest ih =>
    rcases p with ⟨d0, v⟩
    intro pos q hinc hge hlast
    have hinc2 : List.Pairwise (· < ·) (d0 :: docnums rest) := hinc
    have hpos : pos ≤ d0 := hge d0 (by simp [docnums])
    have hge2 : ∀ e ∈ docnums rest, d0 + 1 ≤ e := by
      intro e he
      have := (List.pairwise_cons.mp hinc2).1 e he
      omega
    have hrest_pw : List.Pairwise (· < ·) (docnums rest) :=
      (List.pairwise_cons.mp hinc2).2
    rw [gapIter, List.length_append, List.length_replicate, List.length_cons]
    cases rest with
    | nil =>
      have hq : (d0, v) = q := by
        have h1 : ([((d0 : Nat), v)] : List (Nat × α)).getLast?
            = some (d0, v) := rfl
        rw [h1] at hlast
        injection hlast
      subst hq
      have hnil : (gapIter (d0 + 1) ([] : List (Nat × α))).length = 0 := rfl
      rw [hnil]
      show d0 - pos + (0 + 1) = d0 + 1 - pos
      omega
    | cons q2 rtl =>
      rw [List.getLast?_cons_cons] at hlast
      rw [ih (d0 + 1) q hrest_pw hge2 hlast]
      have hqmem : q ∈ q2 :: rtl := List.mem_of_getLast?_eq_some hlast
      have hq1 : d0 + 1 ≤ q.1 := hge2 q.1 (List.mem_map_of_mem Prod.fst hqmem)
      omega

theorem bzIter_length_last {α : Type} (adds : List (Nat × α)) (dc : Nat)
    (q : Nat × α) (h : strictIncr adds) (hlast : adds.getLast? = some q) :
    (bzIter (bzFinish adds) dc).length = q.1 + 1 := by
  rw [bzIter, bzPairs_finish]
  have := gapIter_length_last adds 0 q h (fun e _ => Nat.zero_le e) hlast
  simpa using this

theorem bzIter_eq_map {α : Type} (adds : List (Nat × α)) (dc : Nat)
    (q : Nat × α) (h : strictIncr adds) (hlast : adds.getLast? = some q) :
    bzIter (bzFinish adds) dc
      = (List.range (q.1 + 1)).map (bzReadAt (bzFinish adds)) := by
  have hlen := bzIter_length_last adds dc q h hlast
  refine List.ext_getElem (by simp [hlen]) ?_
  intro i h1 h2
  have hi : i < q.1 + 1 := by
    rw [hlen] at h1
    exact h1
  have e1 : (bzIter (bzFinish adds) dc)[i]
      = (bzIter (bzFinish adds) dc).getD i none := by
    rw [List.getD_eq_getElem?_getD, List.getElem?_eq_getElem h1]
    rfl
  have e2 : ((List.range (q.1 + 1)).map (bzReadAt (bzFinish adds)))[i]
      = ((List.range (q.1 + 1)).map (bzReadAt (bzFinish adds))).getD i none := by
    rw [List.getD_eq_getElem?_getD, List.getElem?_eq_getElem h2]
    rfl
  rw [e1, e2, bzIter_getD adds dc i h, range_map_getD _ _ hi,
      bzReadAt_finish adds h i]

theorem bzTwoBlocks :
    bzFinish [(2, ([1] : Bytes)), (5, [2])] = ⟨[[(2, [1]), (5, [2])]]⟩ := by
  rw [bzFinish, groupsOf_small _ _ (by decide)]

/-! ### The claims -/

/-- C10: for every format configuration and analyzed token stream,
`Format.index` returns `fieldlen` equal to the total token count, exactly
one posting per distinct token text, the postings sorted in ascending order
of token text, and every posting's length component equal to `fieldlen`
whether or not `has_lengths` is set. -/
theorem claim_C10_format_index (f : Format) (toBytes : Nat → Bytes)
    (toks : List Tok) (docid : Option Nat) (boost : ℚ) :
    (Format.index f toBytes toks docid boost).1 = toks.length ∧
    (Format.index f toBytes toks docid boost).2.length
      = (toks.map Tok.text).dedup.length ∧
    List.Sorted (· < ·) (indexTerms toks) ∧
    (∀ t, t ∈ indexTerms toks ↔ t ∈ toks.map Tok.text) ∧
    (Format.index f toBytes toks docid boost).2.map Posting.termbytes
      = (indexTerms toks).map toBytes ∧
    (∀ p ∈ (Format.index f toBytes toks docid boost).2,
      p.length = toks.length) := by
  refine ⟨rfl, ?_, indexTerms_sorted toks, indexTerms_mem toks, ?_, ?_⟩
  · rw [Format.index]
    simpa using indexTerms_length toks
  · rw [Format.index]
    simp [List.map_map, Function.comp_def]
  · intro p hp
    rw [Format.index] at hp
    simp only [List.mem_map] at hp
    rcases hp with ⟨t, _, rfl⟩
    rfl

/-- C9: numeric elements are written in the writer's native byte order and
a `native = false` reader byte-swaps each element on read, so it returns
natively written values with their bytes swapped, and it reproduces exactly
the values written on a machine of the opposite byte order. -/
theorem claim_C9_numeric_byte_order (w : Nat) (adds : List (Nat × Nat))
    (dc d : Nat) (hv : ∀ p ∈ adds, p.2 < 256 ^ w) (hd : d < dc) :
    numReadAt w (numFinish w adds dc) false d
        = byteSwapped w ((lookupDoc adds d).getD 0) ∧
    numReadAt w (numFinishOpp w adds dc) false d
        = (lookupDoc adds d).getD 0 := by
  constructor
  · rw [numReadAt, if_neg (by simp), numFinish_chunk w adds hd, byteSwapped]
  · rw [numReadAt, if_neg (by simp), numFinishOpp_chunk w adds hd,
        List.reverse_reverse, fromLE_toLE_of_lt (lookupDoc_lt_pow w hv d)]

/-- Witness for C9 at a concrete two-byte column holding 258 = 0x0102. -/
theorem claim_C9_witness :
    numReadAt 2 (numFinish 2 [(0, 258)] 1) false 0
        = byteSwapped 2 ((lookupDoc [(0, 258)] 0).getD 0) ∧
    numReadAt 2 (numFinishOpp 2 [(0, 258)] 1) false 0
        = (lookupDoc [(0, 258)] 0).getD 0 :=
  claim_C9_numeric_byte_order 2 [(0, 258)] 1 0 (by decide) (by decide)

/-- C5: the roaring bit column reads back true exactly for the docnums
explicitly added with value true; never-written docnums and docnums
explicitly added false both read back false, indistinguishably. -/
theorem claim_C5_roaring (adds : List (Nat × Bool)) (h : strictIncr adds)
    (dc d : Nat) (hd : d < dc) :
    (roarGetitem (roarFinish adds) dc d = .ok true ↔ (d, true) ∈ adds) ∧
    (d ∉ docnums adds → roarGetitem (roarFinish adds) dc d = .ok false) ∧
    ((d, false) ∈ adds → roarGetitem (roarFinish adds) dc d = .ok false) := by
  have hok : roarGetitem (roarFinish adds) dc d
      = .ok (roarReadAt (roarFinish adds) d) := by
    rw [roarGetitem, if_neg (by omega)]
  refine ⟨?_, ?_, ?_⟩
  · rw [hok]
    constructor
    · intro hh
      have hb : roarReadAt (roarFinish adds) d = true := by
        injection hh
      exact (roarReadAt_finish adds d).mp hb
    · intro hm
      rw [(roarReadAt_finish adds d).mpr hm]
  · intro hnw
    rw [hok]
    cases hb : roarReadAt (roarFinish adds) d
    · rfl
    · exfalso
      have hmt := (roarReadAt_finish adds d).mp hb
      exact hnw (List.mem_map_of_mem Prod.fst hmt)
  · intro hmf
    rw [hok]
    cases hb : roarReadAt (roarFinish adds) d
    · rfl
    · exfalso
      have hmt := (roarReadAt_finish adds d).mp hb
      have hnd := strictIncr_nodup h
      have h1 := lookupDoc_eq_some hnd hmf
      have h2 := lookupDoc_eq_some hnd hmt
      rw [h1] at h2
      simp at h2

/-- Witness for C5 at a session with one true and one false docnum. -/
theorem claim_C5_witness :
    (roarGetitem (roarFinish [(1, true), (3, false)]) 5 1 = .ok true
        ↔ (1, true) ∈ [(1, true), (3, false)]) ∧
    (1 ∉ docnums [(1, true), (3, false)] →
      roarGetitem (roarFinish [(1, true), (3, false)]) 5 1 = .ok false) ∧
    ((1, false) ∈ [(1, true), (3, false)] →
      roarGetitem (roarFinish [(1, true), (3, false)]) 5 1 = .ok false) :=
  claim_C5_roaring [(1, true), (3, false)] (by simp [strictIncr, docnums]) 5 1 (by decide)

/-- C6: the compact and the sparse integer encodings of the same logical
mapping and `doc_count` give identical indexed lookups at every docnum below
`doc_count` and identical full iterations. -/
theorem claim_C6_compact_sparse (adds : List (Nat × Int)) (h : strictIncr adds)
    (dc : Nat) (hdc : ∀ p ∈ adds, p.1 < dc) :
    (∀ d, d < dc → compactGetitem (compactFinish adds dc) dc d
        = sparseGetitem (sparseFinish adds) dc d) ∧
    compactIter (compactFinish adds dc) dc
      = sparseIter (sparseFinish adds) dc := by
  have hread : ∀ d, d < dc → compactReadAt (compactFinish adds dc) d
      = sparseReadAt (sparseFinish adds) d := by
    intro d hd
    rw [compactReadAt_finish adds hd,
        sparseReadAt_finish adds (strictIncr_tblSorted h) d]
  have hclen : (compactIter (compactFinish adds dc) dc).length = dc := by
    rw [compactIter]
    simp [chunksOf_length]
  have hslen : (sparseIter (sparseFinish adds) dc).length = dc := by
    rw [sparseIter_eq adds h dc, materialize_length]
  constructor
  · intro d hd
    rw [compactGetitem, sparseGetitem, if_neg (by omega), if_neg (by omega),
        hread d hd]
  · refine List.ext_getElem (by rw [hclen, hslen]) ?_
    intro i h1 h2
    have hi : i < dc := by rwa [hclen] at h1
    have e1 : (compactIter (compactFinish adds dc) dc)[i]
        = (compactIter (compactFinish adds dc) dc).getD i 0 := by
      rw [List.getD_eq_getElem?_getD, List.getElem?_eq_getElem h1]
      rfl
    have e2 : (sparseIter (sparseFinish adds) dc)[i]
        = (sparseIter (sparseFinish adds) dc).getD i 0 := by
      rw [List.getD_eq_getElem?_getD, List.getElem?_eq_getElem h2]
      rfl
    rw [e1, e2, compactIter_getD _ hi, hread i hi]
    rw [sparseIter_eq adds h dc, materialize_getD adds 0 0 hi,
        sparseReadAt_finish adds (strictIncr_tblSorted h) i]

/-- Witness for C6 at a small mapping with a gap and a negative value. -/
theorem claim_C6_witness :
    (∀ d, d < 5 → compactGetitem (compactFinish [(1, -5), (3, 7)] 5) 5 d
        = sparseGetitem (sparseFinish [(1, -5), (3, 7)]) 5 d) ∧
    compactIter (compactFinish [(1, -5), (3, 7)] 5) 5
      = sparseIter (sparseFinish [(1, -5), (3, 7)]) 5 :=
  claim_C6_compact_sparse [(1, -5), (3, 7)] (by simp [strictIncr, docnums]) 5 (by decide)

/-- C7: the path column's indexed lookups and full iteration agree
value-for-value with a variable-bytes column written with the same inputs
and `doc_count`. -/
theorem claim_C7_path_var (adds : List (Nat × Bytes)) (h : strictIncr adds)
    (dc : Nat) :
    (∀ d, d < dc → pathGetitem (pathFinish adds) dc d
        = varGetitem (varFinish adds dc) dc d) ∧
    pathIter (pathFinish adds) dc = varIter (varFinish adds dc) := by
  have hread : ∀ d, d < dc → pathReadAt (pathFinish adds) d
      = varReadAt (varFinish adds dc) d := by
    intro d hd
    rw [pathReadAt_finish adds h d, varReadAt_finish adds h hd]
  have hplen : (pathIter (pathFinish adds) dc).length = dc := by
    simp [pathIter]
  have hvlen : (varIter (varFinish adds dc)).length = dc := by
    rw [varIter]
    simp [varFinish_table_length]
  constructor
  · intro d hd
    rw [pathGetitem, varGetitem, if_neg (by omega), if_neg (by omega),
        hread d hd]
  · refine List.ext_getElem (by rw [hplen, hvlen]) ?_
    intro i h1 h2
    have hi : i < dc := by rwa [hplen] at h1
    have e1 : (pathIter (pathFinish adds) dc)[i]
        = (pathIter (pathFinish adds) dc).getD i [] := by
      rw [List.getD_eq_getElem?_getD, List.getElem?_eq_getElem h1]
      rfl
    have e2 : (varIter (varFinish adds dc))[i]
        = (varIter (varFinish adds dc)).getD i [] := by
      rw [List.getD_eq_getElem?_getD, List.getElem?_eq_getElem h2]
      rfl
    rw [e1, e2, pathIter, range_map_getD _ _ hi,
        varIter_getD _ (by rw [varFinish_table_length]; exact hi), hread i hi]

/-- Witness for C7 at two slash-delimited paths sharing a prefix. -/
theorem claim_C7_witness :
    (∀ d, d < 3 →
      pathGetitem (pathFinish [(0, [47, 97, 47, 98]), (2, [47, 97, 47, 99])]) 3 d
        = varGetitem (varFinish [(0, [47, 97, 47, 98]), (2, [47, 97, 47, 99])] 3) 3 d) ∧
    pathIter (pathFinish [(0, [47, 97, 47, 98]), (2, [47, 97, 47, 99])]) 3
      = varIter (varFinish [(0, [47, 97, 47, 98]), (2, [47, 97, 47, 99])] 3) :=
  claim_C7_path_var [(0, [47, 97, 47, 98]), (2, [47, 97, 47, 99])] (by simp [strictIncr, docnums]) 3

/-- C8: `names()` is the distinct labels in first-occurrence order; a
written docnum reads back exactly its added interval list; unwritten and
out-of-range docnums yield the empty list without failing. -/
theorem claim_C8_ann (adds : List (Nat × List Anno)) (h : strictIncr adds)
    (dc : Nat) (hdc : ∀ p ∈ adds, p.1 < dc) :
    annNames (annFinish adds)
      = firstUniques ((adds.map (fun p => p.2.map Prod.fst)).flatten) ∧
    (∀ d annos, (d, annos) ∈ adds →
      annGetitem (annFinish adds) dc d = .ok annos) ∧
    (∀ d, d ∉ docnums adds → annGetitem (annFinish adds) dc d = .ok []) ∧
    (∀ d, dc ≤ d → annGetitem (annFinish adds) dc d = .ok []) := by
  refine ⟨annFinish_names adds, ?_, ?_, ?_⟩
  · intro d annos hmem
    rw [annGetitem, annFinish,
        annAddAll_read adds ⟨[], []⟩ (by simpa using strictIncr_nodup h) hmem]
  · intro d hd
    rw [annGetitem, annFinish_read_none adds hd]
  · intro d hd
    have hnw : d ∉ docnums adds := by
      intro hmem
      rcases List.mem_map.mp hmem with ⟨p, hp, rfl⟩
      have := hdc p hp
      omega
    rw [annGetitem, annFinish_read_none adds hnw]

/-- Witness for C8 at a two-document session with a repeated label. -/
theorem claim_C8_witness :
    annNames (annFinish [(0, [(5, 0, 2), (7, 3, 4)]), (2, [(5, 1, 3)])])
      = firstUniques (([(0, [(5, 0, 2), (7, 3, 4)]), (2, [(5, 1, 3)])].map
          (fun p => p.2.map Prod.fst)).flatten) ∧
    (∀ d annos, (d, annos) ∈ [(0, [(5, 0, 2), (7, 3, 4)]), (2, [(5, 1, 3)])] →
      annGetitem (annFinish [(0, [(5, 0, 2), (7, 3, 4)]), (2, [(5, 1, 3)])]) 4 d
        = .ok annos) ∧
    (∀ d, d ∉ docnums [(0, [(5, 0, 2), (7, 3, 4)]), (2, [(5, 1, 3)])] →
      annGetitem (annFinish [(0, [(5, 0, 2), (7, 3, 4)]), (2, [(5, 1, 3)])]) 4 d
        = .ok []) ∧
    (∀ d, 4 ≤ d →
      annGetitem (annFinish [(0, [(5, 0, 2), (7, 3, 4)]), (2, [(5, 1, 3)])]) 4 d
        = .ok []) :=
  claim_C8_ann [(0, [(5, 0, 2), (7, 3, 4)]), (2, [(5, 1, 3)])]
    (by simp [strictIncr, docnums]) 4 (by decide)

theorem not_mem_docnums_of_lookup_none {α : Type} {adds : List (Nat × α)}
    {d : Nat} (h : lookupDoc adds d = none) : d ∉ docnums adds := by
  intro hmem
  rcases List.mem_map.mp hmem with ⟨p, hp, hpd⟩
  have hfind : adds.find? (fun q => q.1 == d) = none := by
    cases hfq : adds.find? (fun q => q.1 == d) with
    | none => rfl
    | some q => rw [lookupDoc, hfq] at h; cases h
  rw [List.find?_eq_none] at hfind
  exact hfind p hp (by simpa using hpd)

/-- C4: a reference-column session adding more than 65535 distinct values
warns twice (first drop and finish summary); every document whose value is
in the capped dictionary reads back exactly that value; every document
whose value was dropped at the cap reads back the empty default; and no
read fails — the degradation is non-fatal. -/
theorem claim_C4_ref_overflow (adds : List (Nat × Bytes))
    (h : strictIncr adds) :
    (refCap < (firstUniques (adds.map Prod.snd)).length →
      (refFinish adds).warnings = 2) ∧
    (∀ d v, (d, v) ∈ adds →
      v ∈ (firstUniques (adds.map Prod.snd)).take refCap →
      refReadAt (refFinish adds) d = v) ∧
    (∀ d v, (d, v) ∈ adds →
      v ∉ (firstUniques (adds.map Prod.snd)).take refCap →
      refReadAt (refFinish adds) d = []) ∧
    (∀ dc d, d < dc → ∃ b, refGetitem (refFinish adds) dc d = .ok b) := by
  have hnd : (refInit.cells.map Prod.fst ++ docnums adds).Nodup := by
    simpa using strictIncr_nodup h
  refine ⟨refFinish_warnings_of_overflow adds, ?_, ?_, ?_⟩
  · intro d v hmem hv
    rw [refFinish_readAt, refAddAll_read adds refInit hnd hmem]
    rw [if_pos (by rw [refAddAll_dict_eq]; exact hv)]
  · intro d v hmem hv
    rw [refFinish_readAt, refAddAll_read adds refInit hnd hmem]
    rw [if_neg (by rw [refAddAll_dict_eq]; exact hv)]
  · intro dc d hd
    exact ⟨refReadAt (refFinish adds) d, by rw [refGetitem, if_neg (by omega)]⟩

/-- The canonical overflow session: 65536 docnums carrying 65536 distinct
one-byte-list values. -/
def refCex : List (Nat × Bytes) :=
  (List.range 65536).map (fun i => (i, [i]))

theorem refCex_docnums : docnums refCex = List.range 65536 := by
  rw [refCex, docnums, List.map_map]
  rw [List.map_congr_left
      (fun a _ => rfl :
        ∀ a ∈ List.range 65536, (Prod.fst ∘ fun i => (i, ([i] : Bytes))) a = id a)]
  exact List.map_id _

theorem refCex_strictIncr : strictIncr refCex := by
  rw [strictIncr, refCex_docnums]
  exact List.pairwise_lt_range _

theorem refCex_vals : refCex.map Prod.snd
    = (List.range 65536).map (fun i => ([i] : Bytes)) := by
  rw [refCex, List.map_map]
  exact List.map_congr_left (fun a _ => rfl)

theorem refCex_vals_nodup : (refCex.map Prod.snd).Nodup := by
  rw [refCex_vals]
  refine (List.nodup_range _).map ?_
  intro a b hab
  simpa using hab

theorem refCex_over_cap :
    refCap < (firstUniques (refCex.map Prod.snd)).length := by
  rw [firstUniques_of_nodup refCex_vals_nodup, refCex_vals,
      List.length_map, List.length_range]
  unfold refCap
  norm_num

/-- Witness for C4 at the 65536-distinct-value session. -/
theorem claim_C4_witness :
    (refCap < (firstUniques (refCex.map Prod.snd)).length →
      (refFinish refCex).warnings = 2) ∧
    (∀ d v, (d, v) ∈ refCex →
      v ∈ (firstUniques (refCex.map Prod.snd)).take refCap →
      refReadAt (refFinish refCex) d = v) ∧
    (∀ d v, (d, v) ∈ refCex →
      v ∉ (firstUniques (refCex.map Prod.snd)).take refCap →
      refReadAt (refFinish refCex) d = []) ∧
    (∀ dc d, d < dc → ∃ b, refGetitem (refFinish refCex) dc d = .ok b) :=
  claim_C4_ref_overflow refCex refCex_strictIncr

theorem roarReadAt_lookup (adds : List (Nat × Bool)) (h : strictIncr adds)
    (d : Nat) :
    roarReadAt (roarFinish adds) d = (lookupDoc adds d).getD false := by
  cases hld : lookupDoc adds d with
  | none =>
    cases hb : roarReadAt (roarFinish adds) d
    · rfl
    · exfalso
      have hmt := (roarReadAt_finish adds d).mp hb
      rw [lookupDoc_eq_some (strictIncr_nodup h) hmt] at hld
      exact Option.noConfusion hld
  | some b =>
    cases b
    · cases hb : roarReadAt (roarFinish adds) d
      · rfl
      · exfalso
        have hmt := (roarReadAt_finish adds d).mp hb
        have h2 := lookupDoc_eq_some (strictIncr_nodup h) hmt
        rw [hld] at h2
        simp at h2
    · have hmem := lookupDoc_mem_pair hld
      rw [(roarReadAt_finish adds d).mpr hmem]
      rfl

theorem annReadAt_lookup (adds : List (Nat × List Anno)) (h : strictIncr adds)
    (d : Nat) : annReadAt (annFinish adds) d = (lookupDoc adds d).getD [] := by
  cases hld : lookupDoc adds d with
  | none =>
    rw [annFinish_read_none adds (not_mem_docnums_of_lookup_none hld)]
    rfl
  | some annos =>
    have hmem := lookupDoc_mem_pair hld
    rw [annFinish,
        annAddAll_read adds ⟨[], []⟩ (by simpa using strictIncr_nodup h) hmem]
    rfl

theorem refReadAt_lookup_of_cap (adds : List (Nat × Bytes))
    (h : strictIncr adds)
    (hcap : (firstUniques (adds.map Prod.snd)).length ≤ refCap) (d : Nat) :
    refReadAt (refFinish adds) d = (lookupDoc adds d).getD [] := by
  cases hld : lookupDoc adds d with
  | none =>
    rw [refFinish_readAt,
        refAddAll_read_none adds (not_mem_docnums_of_lookup_none hld)]
    rfl
  | some v =>
    have hmem := lookupDoc_mem_pair hld
    rw [refFinish_readAt,
        refAddAll_read adds refInit (by simpa using strictIncr_nodup h) hmem]
    have hv : v ∈ (refAddAll refInit adds).dict := by
      rw [refAddAll_dict_eq, List.take_of_length_le hcap, mem_firstUniques]
      exact List.mem_map.mpr ⟨(d, v), hmem, rfl⟩
    rw [if_pos hv]
    rfl

/-- C1 (amended): writing then reading back reproduces, for every docnum
below `doc_count`, the written value or the default, with indexed lookup
and the docnum-th element of full iteration agreeing — for the fixed-bytes,
variable-bytes, numeric, bit, roaring, compact-int, sparse-int, annotation,
path, per-value-compressed and block-compressed columns unconditionally
(the block-compressed column's iteration ends at the last written docnum,
so positions past its end count as the default `none`), and for the
dictionary reference column whenever the session stays within its
65535-distinct-value cap (beyond the cap, dropped values read back as the
empty default — see the counterexample). -/
theorem claim_C1_roundtrip :
    (∀ (w : Nat) (adds : List (Nat × Bytes)) (dc d : Nat), strictIncr adds →
      (∀ p ∈ adds, p.2.length = w) → d < dc →
      fixedGetitem w (fixedFinish w adds dc) dc d
          = .ok ((lookupDoc adds d).getD (List.replicate w 0)) ∧
      (fixedIter w (fixedFinish w adds dc) dc).getD d []
          = (lookupDoc adds d).getD (List.replicate w 0)) ∧
    (∀ (adds : List (Nat × Bytes)) (dc d : Nat), strictIncr adds → d < dc →
      varGetitem (varFinish adds dc) dc d = .ok ((lookupDoc adds d).getD []) ∧
      (varIter (varFinish adds dc)).getD d [] = (lookupDoc adds d).getD []) ∧
    (∀ (w : Nat) (adds : List (Nat × Nat)) (dc d : Nat), strictIncr adds →
      (∀ p ∈ adds, p.2 < 256 ^ w) → d < dc →
      numGetitem w (numFinish w adds dc) dc true d
          = .ok ((lookupDoc adds d).getD 0) ∧
      (numIter w (numFinish w adds dc) dc true).getD d 0
          = (lookupDoc adds d).getD 0) ∧
    (∀ (adds : List (Nat × Bool)) (dc d : Nat), strictIncr adds → d < dc →
      bitGetitem (bitFinish adds dc) dc d
          = .ok ((lookupDoc adds d).getD false) ∧
      (bitIter (bitFinish adds dc) dc).getD d false
          = (lookupDoc adds d).getD false) ∧
    (∀ (adds : List (Nat × Bool)) (dc d : Nat), strictIncr adds → d < dc →
      roarGetitem (roarFinish adds) dc d
          = .ok ((lookupDoc adds d).getD false) ∧
      (roarIter (roarFinish adds) dc).getD d false
          = (lookupDoc adds d).getD false) ∧
    (∀ (adds : List (Nat × Int)) (dc d : Nat), strictIncr adds → d < dc →
      compactGetitem (compactFinish adds dc) dc d
          = .ok ((lookupDoc adds d).getD 0) ∧
      (compactIter (compactFinish adds dc) dc).getD d 0
          = (lookupDoc adds d).getD 0) ∧
    (∀ (adds : List (Nat × Int)) (dc d : Nat), strictIncr adds → d < dc →
      sparseGetitem (sparseFinish adds) dc d
          = .ok ((lookupDoc adds d).getD 0) ∧
      (sparseIter (sparseFinish adds) dc).getD d 0
          = (lookupDoc adds d).getD 0) ∧
    (∀ (adds : List (Nat × List Anno)) (dc d : Nat), strictIncr adds →
      d < dc →
      annGetitem (annFinish adds) dc d = .ok ((lookupDoc adds d).getD []) ∧
      (annIter (annFinish adds) dc).getD d [] = (lookupDoc adds d).getD []) ∧
    (∀ (adds : List (Nat × Bytes)) (dc d : Nat), strictIncr adds → d < dc →
      pathGetitem (pathFinish adds) dc d = .ok ((lookupDoc adds d).getD []) ∧
      (pathIter (pathFinish adds) dc).getD d [] = (lookupDoc adds d).getD []) ∧
    (∀ (adds : List (Nat × Bytes)) (dc d : Nat), strictIncr adds →
      (firstUniques (adds.map Prod.snd)).length ≤ refCap → d < dc →
      refGetitem (refFinish adds) dc d = .ok ((lookupDoc adds d).getD []) ∧
      (refIter (refFinish adds) dc).getD d [] = (lookupDoc adds d).getD []) ∧
    (∀ (adds : List (Nat × Bytes)) (dc d : Nat), strictIncr adds → d < dc →
      czGetitem (czFinish adds dc) dc d = .ok ((lookupDoc adds d).getD []) ∧
      (czIter (czFinish adds dc)).getD d [] = (lookupDoc adds d).getD []) ∧
    (∀ (adds : List (Nat × Bytes)) (dc d : Nat), strictIncr adds → d < dc →
      bzGetitem (bzFinish adds) dc d = .ok (lookupDoc adds d) ∧
      (bzIter (bzFinish adds) dc).getD d none = lookupDoc adds d) := by
  refine ⟨?_, ?_, ?_, ?_, ?_, ?_, ?_, ?_, ?_, ?_, ?_, ?_⟩
  · intro w adds dc d _ hval hd
    refine ⟨?_, ?_⟩
    · rw [fixedGetitem, if_neg (by omega), fixedReadAt_finish w adds hval hd]
    · rw [fixedIter_getD w _ hd, fixedReadAt_finish w adds hval hd]
  · intro adds dc d h hd
    refine ⟨?_, ?_⟩
    · rw [varGetitem, if_neg (by omega), varReadAt_finish adds h hd]
    · rw [varIter_getD _ (by rw [varFinish_table_length]; exact hd),
          varReadAt_finish adds h hd]
  · intro w adds dc d _ hval hd
    refine ⟨?_, ?_⟩
    · rw [numGetitem, if_neg (by omega), numReadAt_native w adds hval hd]
    · rw [numIter_getD w _ true hd, numReadAt_native w adds hval hd]
  · intro adds dc d _ hd
    refine ⟨?_, ?_⟩
    · rw [bitGetitem, if_neg (by omega), bitReadAt_finish adds hd]
    · rw [bitIter, range_map_getD _ _ hd, bitReadAt_finish adds hd]
  · intro adds dc d h hd
    refine ⟨?_, ?_⟩
    · rw [roarGetitem, if_neg (by omega), roarReadAt_lookup adds h d]
    · rw [roarIter, range_map_getD _ _ hd, roarReadAt_lookup adds h d]
  · intro adds dc d _ hd
    refine ⟨?_, ?_⟩
    · rw [compactGetitem, if_neg (by omega), compactReadAt_finish adds hd]
    · rw [compactIter_getD _ hd, compactReadAt_finish adds hd]
  · intro adds dc d h hd
    refine ⟨?_, ?_⟩
    · rw [sparseGetitem, if_neg (by omega),
          sparseReadAt_finish adds (strictIncr_tblSorted h) d]
    · rw [sparseIter_eq adds h dc, materialize_getD adds 0 0 hd]
  · intro adds dc d h hd
    refine ⟨?_, ?_⟩
    · rw [annGetitem, annReadAt_lookup adds h d]
    · rw [annIter, range_map_getD _ _ hd, annReadAt_lookup adds h d]
  · intro adds dc d h hd
    refine ⟨?_, ?_⟩
    · rw [pathGetitem, if_neg (by omega), pathReadAt_finish adds h d]
    · rw [pathIter, range_map_getD _ _ hd, pathReadAt_finish adds h d]
  · intro adds dc d h hcap hd
    refine ⟨?_, ?_⟩
    · rw [refGetitem, if_neg (by omega), refReadAt_lookup_of_cap adds h hcap d]
    · rw [refIter, range_map_getD _ _ hd, refReadAt_lookup_of_cap adds h hcap d]
  · intro adds dc d h hd
    refine ⟨?_, ?_⟩
    · rw [czGetitem, if_neg (by omega), czReadAt_finish adds h hd]
    · rw [czIter_getD _ (by
            simp only [czFinish]
            rw [varFinish_table_length]
            exact hd),
          czReadAt_finish adds h hd]
  · intro adds dc d h _
    refine ⟨?_, ?_⟩
    · rw [bzGetitem, bzReadAt_finish adds h d]
    · exact bzIter_getD adds dc d h

theorem refAddAll_read_init (adds : List (Nat × Bytes))
    (hnd : (docnums adds).Nodup) {d : Nat} {v : Bytes}
    (hmem : (d, v) ∈ adds) :
    refReadAt (refAddAll refInit adds) d
      = if v ∈ (refAddAll refInit adds).dict then v else [] :=
  refAddAll_read adds refInit (by simpa using hnd) hmem

theorem refCex_dict : (refAddAll refInit refCex).dict
    = (List.range 65535).map (fun i => ([i] : Bytes)) := by
  rw [refAddAll_dict_eq, refCex_vals,
      firstUniques_of_nodup (refCex_vals ▸ refCex_vals_nodup),
      ← List.map_take, List.take_range]
  have hmin : min refCap 65536 = 65535 := by
    unfold refCap
    omega
  rw [hmin]

theorem refCex_mem : (65535, ([65535] : Bytes)) ∈ refCex := by
  rw [refCex]
  exact List.mem_map.mpr ⟨65535, List.mem_range.mpr (by omega), rfl⟩

theorem refCex_last_not_in_dict :
    ([65535] : Bytes) ∉ (refAddAll refInit refCex).dict := by
  rw [refCex_dict]
  intro hmem
  rcases List.mem_map.mp hmem with ⟨i, hi, hEq⟩
  rw [List.mem_range] at hi
  injection hEq with h1 _
  omega

/-- C1 counterexample: in the 65536-distinct-value reference session,
docnum 65535 was explicitly written the value `[65535]`, yet the reader
returns the empty default for it — the universal round-trip fails on the
reference column past its cap. -/
theorem claim_C1_counterexample :
    (65535, ([65535] : Bytes)) ∈ refCex ∧
    refGetitem (refFinish refCex) 65536 65535 = Except.ok [] ∧
    ([65535] : Bytes) ≠ [] := by
  refine ⟨refCex_mem, ?_, by simp⟩
  have hread : refReadAt (refFinish refCex) 65535 = [] := by
    rw [refFinish_readAt,
        refAddAll_read_init refCex (strictIncr_nodup refCex_strictIncr)
          refCex_mem,
        if_neg refCex_last_not_in_dict]
  rw [refGetitem, if_neg (by omega), hread]

theorem fixedIter_eq_map (w : Nat) (bytes : Bytes) (dc : Nat) :
    fixedIter w bytes dc = (List.range dc).map (fixedReadAt w bytes) := by
  refine List.ext_getElem (by simp [fixedIter, chunksOf_length]) ?_
  intro i h1 h2
  have hi : i < dc := by simpa [fixedIter, chunksOf_length] using h1
  have e1 : (fixedIter w bytes dc)[i] = (fixedIter w bytes dc).getD i [] := by
    rw [List.getD_eq_getElem?_getD, List.getElem?_eq_getElem h1]
    rfl
  have e2 : ((List.range dc).map (fixedReadAt w bytes))[i]
      = ((List.range dc).map (fixedReadAt w bytes)).getD i [] := by
    rw [List.getD_eq_getElem?_getD, List.getElem?_eq_getElem h2]
    rfl
  rw [e1, e2, fixedIter_getD w bytes hi, range_map_getD _ _ hi]

theorem numIter_eq_map (w : Nat) (bytes : Bytes) (dc : Nat) (native : Bool) :
    numIter w bytes dc native
      = (List.range dc).map (numReadAt w bytes native) := by
  refine List.ext_getElem (by simp [numIter, chunksOf_length]) ?_
  intro i h1 h2
  have hi : i < dc := by simpa [numIter, chunksOf_length] using h1
  have e1 : (numIter w bytes dc native)[i]
      = (numIter w bytes dc native).getD i 0 := by
    rw [List.getD_eq_getElem?_getD, List.getElem?_eq_getElem h1]
    rfl
  have e2 : ((List.range dc).map (numReadAt w bytes native))[i]
      = ((List.range dc).map (numReadAt w bytes native)).getD i 0 := by
    rw [List.getD_eq_getElem?_getD, List.getElem?_eq_getElem h2]
    rfl
  rw [e1, e2, numIter_getD w bytes native hi, range_map_getD _ _ hi]

theorem compactIter_eq_map (c : CompactData) (dc : Nat) :
    compactIter c dc = (List.range dc).map (compactReadAt c) := by
  refine List.ext_getElem (by simp [compactIter, chunksOf_length]) ?_
  intro i h1 h2
  have hi : i < dc := by simpa [compactIter, chunksOf_length] using h1
  have e1 : (compactIter c dc)[i] = (compactIter c dc).getD i 0 := by
    rw [List.getD_eq_getElem?_getD, List.getElem?_eq_getElem h1]
    rfl
  have e2 : ((List.range dc).map (compactReadAt c))[i]
      = ((List.range dc).map (compactReadAt c)).getD i 0 := by
    rw [List.getD_eq_getElem?_getD, List.getElem?_eq_getElem h2]
    rfl
  rw [e1, e2, compactIter_getD c hi, range_map_getD _ _ hi]

theorem varIter_eq_map (adds : List (Nat × Bytes)) (dc : Nat) :
    varIter (varFinish adds dc)
      = (List.range dc).map (varReadAt (varFinish adds dc)) := by
  refine List.ext_getElem (by simp [varIter, varFinish_table_length]) ?_
  intro i h1 h2
  have hi : i < dc := by
    simpa [varIter, varFinish_table_length] using h1
  have e1 : (varIter (varFinish adds dc))[i]
      = (varIter (varFinish adds dc)).getD i [] := by
    rw [List.getD_eq_getElem?_getD, List.getElem?_eq_getElem h1]
    rfl
  have e2 : ((List.range dc).map (varReadAt (varFinish adds dc)))[i]
      = ((List.range dc).map (varReadAt (varFinish adds dc))).getD i [] := by
    rw [List.getD_eq_getElem?_getD, List.getElem?_eq_getElem h2]
    rfl
  rw [e1, e2, varIter_getD _ (by rw [varFinish_table_length]; exact hi),
      range_map_getD _ _ hi]

theorem czIter_eq_map (adds : List (Nat × Bytes)) (dc : Nat) :
    czIter (czFinish adds dc)
      = (List.range dc).map (czReadAt (czFinish adds dc)) := by
  rw [czIter, czFinish, varIter_eq_map, List.map_map]
  rfl

theorem sparseIter_eq_map (adds : List (Nat × Int)) (h : strictIncr adds)
    (dc : Nat) :
    sparseIter (sparseFinish adds) dc
      = (List.range dc).map (sparseReadAt (sparseFinish adds)) := by
  rw [sparseIter_eq adds h dc, materialize]
  refine List.map_congr_left ?_
  intro k hk
  rw [sparseReadAt_finish adds (strictIncr_tblSorted h) k]

/-- C2 (amended): for every finished column except the block-compressed
one, full iteration is exactly the sequence of indexed values of docnums
`0, 1, …, doc_count - 1` — `doc_count` values in docnum order — and,
iteration being a pure function of the finished column, a fresh iteration
necessarily reproduces the same sequence.  The block-compressed column is
the exception: its iteration runs block by block from docnum 0 through the
last written docnum, yielding `maxdoc + 1` values (in docnum order,
restartable) independently of `doc_count` — see the counterexample. -/
theorem claim_C2_iteration :
    (∀ (w : Nat) (bytes : Bytes) (dc : Nat),
      fixedIter w bytes dc = (List.range dc).map (fixedReadAt w bytes) ∧
      (fixedIter w bytes dc).length = dc) ∧
    (∀ (w : Nat) (bytes : Bytes) (dc : Nat) (native : Bool),
      numIter w bytes dc native
          = (List.range dc).map (numReadAt w bytes native) ∧
      (numIter w bytes dc native).length = dc) ∧
    (∀ (adds : List (Nat × Bytes)) (dc : Nat),
      varIter (varFinish adds dc)
          = (List.range dc).map (varReadAt (varFinish adds dc)) ∧
      (varIter (varFinish adds dc)).length = dc) ∧
    (∀ (c : CompactData) (dc : Nat),
      compactIter c dc = (List.range dc).map (compactReadAt c) ∧
      (compactIter c dc).length = dc) ∧
    (∀ (adds : List (Nat × Int)) (dc : Nat), strictIncr adds →
      sparseIter (sparseFinish adds) dc
          = (List.range dc).map (sparseReadAt (sparseFinish adds)) ∧
      (sparseIter (sparseFinish adds) dc).length = dc) ∧
    (∀ (bytes : Bytes) (dc : Nat),
      bitIter bytes dc = (List.range dc).map (bitReadAt bytes) ∧
      (bitIter bytes dc).length = dc) ∧
    (∀ (runs : List (Nat × Nat)) (dc : Nat),
      roarIter runs dc = (List.range dc).map (roarReadAt runs) ∧
      (roarIter runs dc).length = dc) ∧
    (∀ (s : RefState) (dc : Nat),
      refIter s dc = (List.range dc).map (refReadAt s) ∧
      (refIter s dc).length = dc) ∧
    (∀ (st : AnnState) (dc : Nat),
      annIter st dc = (List.range dc).map (annReadAt st) ∧
      (annIter st dc).length = dc) ∧
    (∀ (tbl : List (Nat × Nat × Bytes)) (dc : Nat),
      pathIter tbl dc = (List.range dc).map (pathReadAt tbl) ∧
      (pathIter tbl dc).length = dc) ∧
    (∀ (adds : List (Nat × Bytes)) (dc : Nat),
      czIter (czFinish adds dc)
          = (List.range dc).map (czReadAt (czFinish adds dc)) ∧
      (czIter (czFinish adds dc)).length = dc) ∧
    (∀ (adds : List (Nat × Bytes)) (dc : Nat) (q : Nat × Bytes),
      strictIncr adds → adds.getLast? = some q →
      bzIter (bzFinish adds) dc
          = (List.range (q.1 + 1)).map (bzReadAt (bzFinish adds)) ∧
      (bzIter (bzFinish adds) dc).length = q.1 + 1) := by
  refine ⟨?_, ?_, ?_, ?_, ?_, ?_, ?_, ?_, ?_, ?_, ?_, ?_⟩
  · intro w bytes dc
    exact ⟨fixedIter_eq_map w bytes dc, by simp [fixedIter, chunksOf_length]⟩
  · intro w bytes dc native
    exact ⟨numIter_eq_map w bytes dc native, by simp [numIter, chunksOf_length]⟩
  · intro adds dc
    exact ⟨varIter_eq_map adds dc, by simp [varIter, varFinish_table_length]⟩
  · intro c dc
    exact ⟨compactIter_eq_map c dc, by simp [compactIter, chunksOf_length]⟩
  · intro adds dc h
    refine ⟨sparseIter_eq_map adds h dc, ?_⟩
    rw [sparseIter_eq adds h dc, materialize_length]
  · intro bytes dc
    exact ⟨rfl, by simp [bitIter]⟩
  · intro runs dc
    exact ⟨rfl, by simp [roarIter]⟩
  · intro s dc
    exact ⟨rfl, by simp [refIter]⟩
  · intro st dc
    exact ⟨rfl, by simp [annIter]⟩
  · intro tbl dc
    exact ⟨rfl, by simp [pathIter]⟩
  · intro adds dc
    refine ⟨czIter_eq_map adds dc, ?_⟩
    rw [czIter_eq_map adds dc]
    simp
  · intro adds dc q h hlast
    exact ⟨bzIter_eq_map adds dc q h hlast, bzIter_length_last adds dc q h hlast⟩

/-- C2 counterexample: a block-compressed session whose adds end at docnum
5 is finished and read with `doc_count = 3`, yet a full iteration yields 6
values — one per docnum up to the highest written docnum — not
`doc_count` values. -/
theorem claim_C2_counterexample :
    (bzIter (bzFinish [(2, ([1] : Bytes)), (5, [2])]) 3).length = 6 ∧
    (6 : Nat) ≠ 3 := by
  refine ⟨?_, by decide⟩
  rw [bzTwoBlocks]
  rfl

/-- C3 (amended): for the fixed-bytes, variable-bytes, numeric, reference,
bit, roaring, compact-int, sparse-int, path and per-value-compressed
columns, indexed lookup fails with a RangeKind error exactly when
`docnum ≥ doc_count`, and such a failure is the call's result (never
retried); two column types are exceptions — the annotation column's lookup
never fails and yields the empty list for docnums beyond `doc_count`
(spec §4.9), and the block-compressed column's lookup never fails either,
resolving every docnum through the block index regardless of `doc_count`
(spec §4.8, `test_sparse_block_compressed`). -/
theorem claim_C3_range_errors :
    (∀ (w : Nat) (bytes : Bytes) (dc d : Nat),
      fixedGetitem w bytes dc d = .error .rangeKind ↔ dc ≤ d) ∧
    (∀ (w : Nat) (bytes : Bytes) (dc : Nat) (native : Bool) (d : Nat),
      numGetitem w bytes dc native d = .error .rangeKind ↔ dc ≤ d) ∧
    (∀ (data : VarData) (dc d : Nat),
      varGetitem data dc d = .error .rangeKind ↔ dc ≤ d) ∧
    (∀ (s : RefState) (dc d : Nat),
      refGetitem s dc d = .error .rangeKind ↔ dc ≤ d) ∧
    (∀ (bytes : Bytes) (dc d : Nat),
      bitGetitem bytes dc d = .error .rangeKind ↔ dc ≤ d) ∧
    (∀ (runs : List (Nat × Nat)) (dc d : Nat),
      roarGetitem runs dc d = .error .rangeKind ↔ dc ≤ d) ∧
    (∀ (c : CompactData) (dc d : Nat),
      compactGetitem c dc d = .error .rangeKind ↔ dc ≤ d) ∧
    (∀ (tbl : List (Nat × Int)) (dc d : Nat),
      sparseGetitem tbl dc d = .error .rangeKind ↔ dc ≤ d) ∧
    (∀ (tbl : List (Nat × Nat × Bytes)) (dc d : Nat),
      pathGetitem tbl dc d = .error .rangeKind ↔ dc ≤ d) ∧
    (∀ (data : VarData) (dc d : Nat),
      czGetitem data dc d = .error .rangeKind ↔ dc ≤ d) ∧
    (∀ (st : AnnState) (dc d : Nat),
      annGetitem st dc d = .ok (annReadAt st d)) ∧
    (∀ (bd : BlockData Bytes) (dc d : Nat),
      bzGetitem bd dc d = .ok (bzReadAt bd d)) := by
  refine ⟨?_, ?_, ?_, ?_, ?_, ?_, ?_, ?_, ?_, ?_, ?_, ?_⟩
  · intro w bytes dc d
    by_cases hle : dc ≤ d <;> simp [fixedGetitem, hle]
  · intro w bytes dc native d
    by_cases hle : dc ≤ d <;> simp [numGetitem, hle]
  · intro data dc d
    by_cases hle : dc ≤ d <;> simp [varGetitem, hle]
  · intro s dc d
    by_cases hle : dc ≤ d <;> simp [refGetitem, hle]
  · intro bytes dc d
    by_cases hle : dc ≤ d <;> simp [bitGetitem, hle]
  · intro runs dc d
    by_cases hle : dc ≤ d <;> simp [roarGetitem, hle]
  · intro c dc d
    by_cases hle : dc ≤ d <;> simp [compactGetitem, hle]
  · intro tbl dc d
    by_cases hle : dc ≤ d <;> simp [sparseGetitem, hle]
  · intro tbl dc d
    by_cases hle : dc ≤ d <;> simp [pathGetitem, hle]
  · intro data dc d
    by_cases hle : dc ≤ d <;> simp [czGetitem, hle]
  · intro st dc d
    rfl
  · intro bd dc d
    rfl

/-- C3 counterexample: the annotation column's indexed lookup at docnum 25
of a column finished with `doc_count = 20` returns the empty list, not a
RangeKind error; and the block-compressed column's indexed lookup at
docnum 5 of a column finished and read with `doc_count = 3` returns the
value written there, not a RangeKind error. -/
theorem claim_C3_counterexample :
    (annGetitem (annFinish [(0, [(1, 0, 2)])]) 20 25 = Except.ok [] ∧
     annGetitem (annFinish [(0, [(1, 0, 2)])]) 20 25
       ≠ Except.error ColErr.rangeKind) ∧
    (bzGetitem (bzFinish [(2, ([1] : Bytes)), (5, [2])]) 3 5
       = Except.ok (some [2]) ∧
     bzGetitem (bzFinish [(2, ([1] : Bytes)), (5, [2])]) 3 5
       ≠ Except.error ColErr.rangeKind) := by
  refine ⟨⟨rfl, ?_⟩, ?_, ?_⟩
  · intro hcontra
    rw [annGetitem] at hcontra
    exact Except.noConfusion hcontra
  · rw [bzTwoBlocks]
    rfl
  · intro hcontra
    rw [bzGetitem] at hcontra
    exact Except.noConfusion hcontra
